import Mathlib

/-!
Verification development for the `ebb` configuration engine (`src/ebb.py`).

The engine is a tree of `Scope` nodes.  Each scope holds a `properties`
dictionary mapping string names to Python values (strings, ints, bools,
lists, dicts, or deferred `_Renderer` objects).  Resolution (`Scope.get`)
walks the "related scopes" of a node: its parent (recursively, with
`public_only=True`) and its `Private` children, merging list- and
dict-valued properties and returning scalars closest-wins.

We embed the value model, the resolution algorithm, the interpolation
engine (`Scope.interpolate` / `Scope.get_interpolation_values`), the
prefixed-property extraction (`Scope._get_prefixed_properties`), the
ambient construction stack (`Scope.__enter__` / `__exit__`), and — for the
copy-isolation property — a heap-instrumented variant of `get` in which
Python object identity of list/dict values is explicit.
-/

namespace Ebb

/-- Errors raised by the engine.  Python raises `AssertionError` for the
merge type asserts (the spec calls this `TypeMismatch`), `KeyError` for a
missing interpolation placeholder (`MissingKey`), `AssertionError` for
re-entering the active scope (`IllegalReentry`), and a `ValueError`-like
failure for malformed format strings. -/
inductive Err where
  | typeMismatch
  | missingKey (name : String)
  | badFormat
  | illegalReentry
  | invalidRef
  deriving DecidableEq, Repr

/-- Python values stored in `Scope.properties`, as used by the engine:
strings / ints / bools are the scalars relevant to the code; `vlist` and
`vdict` are the two collection types `Scope.get` merges; `deferredTmpl`
models a `_Renderer` object (a captured template string; the originating
scope is the scope `render` was called on and is left implicit since no
claim inspects it).  Callable values (handler functions) are outside this
model. -/
inductive Value where
  | str (s : String)
  | int (n : Int)
  | bool (b : Bool)
  | vlist (xs : List Value)
  | vdict (m : List (String × Value))
  | deferredTmpl (fmt : String)

/-- A scope's `properties` dictionary: an association list with unique keys
(Python dicts cannot hold duplicate keys); `dLookup` is dict lookup. -/
abbrev Props := List (String × Value)

/-- Python `d[k]` / `k in d` on a dict modeled as an association list. -/
def dLookup {α : Type} (ps : List (String × α)) (k : String) : Option α :=
  match ps.find? (fun p => p.1 = k) with
  | some p => some p.2
  | none => none

/-- Python `d[k] = v`: overwrite in place if the key exists, else append. -/
def dInsert {α : Type} (ps : List (String × α)) (k : String) (v : α) :
    List (String × α) :=
  if ps.any (fun p => p.1 = k) then
    ps.map (fun p => if p.1 = k then (k, v) else p)
  else
    ps ++ [(k, v)]

/-- Python `base.update(m)`: assign every entry of `m` into `base`. -/
def dUpdate {α : Type} (base m : List (String × α)) : List (String × α) :=
  m.foldl (fun b p => dInsert b p.1 p.2) base

/-- `True` for values that are neither a Python `list` nor a `dict`
(`Scope.get` line 137 returns those immediately, closest-wins). -/
def isScalarV : Value → Bool
  | Value.vlist _ => false
  | Value.vdict _ => false
  | _ => true

def isScalarOpt : Option Value → Bool
  | some v => isScalarV v
  | none => false

/-- What `Scope.get` knows about one ancestor: whether it is a `Private`
scope, and its `properties`. -/
structure Frame where
  priv : Bool
  props : Props

/-- A scope node: `priv` is true for instances of the `Private` subclass,
`props` is `self.properties`, `children` is `self.children` in
construction order. -/
inductive Scope where
  | node (priv : Bool) (props : Props) (children : List Scope)

def Scope.priv : Scope → Bool
  | Scope.node p _ _ => p

def Scope.props : Scope → Props
  | Scope.node _ ps _ => ps

def Scope.children : Scope → List Scope
  | Scope.node _ _ cs => cs

/-- One merge step of the loop in `Scope.get` (lines 140-153): `acc` is the
running `value`, `sv` the related scope's `scope_value`.  A list `sv` is
extended with `acc` (so `acc`'s entries end up after `sv`'s, lines
142-145); a dict `sv` is updated with `acc` (so `acc`'s keys win, lines
147-150); the `assert isinstance` failures are `typeMismatch`; a non-None
scalar `sv` replaces `acc` (line 152). -/
def mergeInto (acc sv : Option Value) : Except Err (Option Value) :=
  match sv with
  | none => Except.ok acc
  | some (Value.vlist xs) =>
    match acc with
    | none => Except.ok (some (Value.vlist xs))
    | some (Value.vlist ys) => Except.ok (some (Value.vlist (xs ++ ys)))
    | some _ => Except.error Err.typeMismatch
  | some (Value.vdict m) =>
    match acc with
    | none => Except.ok (some (Value.vdict m))
    | some (Value.vdict m2) => Except.ok (some (Value.vdict (dUpdate m m2)))
    | some _ => Except.error Err.typeMismatch
  | some v => Except.ok (some v)

/-- `scope.get(name, public_only=True)` along the ancestor chain (nearest
ancestor first).  With `public_only=True`, `_get_related_scopes` yields
only the parent (line 247-248), and `Private._get_related_scopes` yields
nothing (line 332-333), so a `Private` ancestor cuts the chain. -/
def getUp (name : String) : List Frame → Except Err (Option Value)
  | [] => Except.ok none
  | f :: rest =>
    let v0 := dLookup f.props name
    if isScalarOpt v0 then Except.ok v0
    else do
      let pv ← if f.priv then Except.ok none else getUp name rest
      mergeInto v0 pv

/-- The loop of `Scope.get` over the `Private` children of the queried
scope (line 250-253): each private child `c` contributes
`c.get(name, public_only=True)`, which for a `Private` scope is just its
own stored value (its related-scope list is empty), returned as a copy. -/
def mergeChildren (name : String) : List Scope → Option Value →
    Except Err (Option Value)
  | [], acc => Except.ok acc
  | c :: cs, acc =>
    if c.priv then do
      let acc' ← mergeInto acc (dLookup c.props name)
      mergeChildren name cs acc'
    else mergeChildren name cs acc

/-- `Scope.get(name)` (lines 127-161) without the final default
substitution: `none` plays Python's `None`.  `chain` lists the ancestors,
nearest first.  A scalar local value is returned immediately; otherwise the
parent's public resolution is merged first, then each private child's
value, in child order.  The final `value[:]` / `value.copy()` of the
source are identities on immutable values (the heap model below makes the
copies explicit). -/
def getOpt (chain : List Frame) (self : Scope) (name : String) :
    Except Err (Option Value) :=
  let v0 := dLookup self.props name
  if isScalarOpt v0 then Except.ok v0
  else if self.priv then Except.ok v0
  else do
    let pv ← getUp name chain
    let v1 ← mergeInto v0 pv
    mergeChildren name self.children v1

/-- `Scope.get(name, default)`: line 161 substitutes `default` only when
the resolved value is `None`. -/
def get (chain : List Frame) (self : Scope) (name : String)
    (default : Option Value) : Except Err (Option Value) :=
  match getOpt chain self name with
  | Except.ok (some v) => Except.ok (some v)
  | Except.ok none => Except.ok default
  | Except.error e => Except.error e

/-- A stored value that is either absent or a Python list (the shape under
which a `Private` child participates in a list merge without tripping the
`assert isinstance(value, list)`). -/
def listOrNone : Option Value → Bool
  | none => true
  | some (Value.vlist _) => true
  | _ => false

/-- The list entries contributed by the `Private` children during the merge
loop of `Scope.get`: each private child's stored list is prepended in front
of the running value, so a later child's entries end up before an earlier
child's. -/
def privListAcc (name : String) : List Scope → List Value
  | [] => []
  | c :: cs =>
    privListAcc name cs ++
      (if c.priv then
        (match dLookup c.props name with
         | some (Value.vlist zs) => zs
         | _ => [])
      else [])

/-- Key uniqueness of a Python dict modeled as an association list. -/
def keysNodup {α : Type} (m : List (String × α)) : Prop :=
  (m.map Prod.fst).Nodup

/-- `firstSome a b` is `a` when present, else `b` (the lookup shape of a
dict update: the overriding entry wins when it exists). -/
def firstSome {α : Type} (a b : Option α) : Option α :=
  match a with
  | some v => some v
  | none => b

-- ### Interpolation engine

/-- The format-control characters, by code point. -/
def lbrace : Char := Char.ofNat 123

def rbrace : Char := Char.ofNat 125

/-- The scan loop of Python `value.format(**ns)` restricted to the simple
placeholders this engine uses: a brace-delimited name is looked up in
`ns`; an absent name raises `KeyError` (modeled `missingKey`, see the
`except KeyError` re-raise in `Scope.interpolate` lines 179-182); doubled
braces are literals; a stray closing brace or an unterminated placeholder
is a `ValueError` (`badFormat`).  `inName` tells whether we are inside a
placeholder, `nm` accumulates its name in reverse. -/
def formatScan (ns : List (String × String)) :
    List Char → Bool → List Char → Except Err (List Char)
  | [], false, _ => Except.ok []
  | [], true, _ => Except.error Err.badFormat
  | c :: rest, false, _ =>
    if c = lbrace then
      match rest with
      | c2 :: rest2 =>
        if c2 = lbrace then do
          let t ← formatScan ns rest2 false []
          Except.ok (lbrace :: t)
        else formatScan ns (c2 :: rest2) true []
      | [] => Except.error Err.badFormat
    else if c = rbrace then
      match rest with
      | c2 :: rest2 =>
        if c2 = rbrace then do
          let t ← formatScan ns rest2 false []
          Except.ok (rbrace :: t)
        else Except.error Err.badFormat
      | [] => Except.error Err.badFormat
    else do
      let t ← formatScan ns rest false []
      Except.ok (c :: t)
  | c :: rest, true, nm =>
    if c = rbrace then
      match dLookup ns (String.mk nm.reverse) with
      | none => Except.error (Err.missingKey (String.mk nm.reverse))
      | some v => do
        let t ← formatScan ns rest false []
        Except.ok (v.data ++ t)
    else formatScan ns rest true (c :: nm)

/-- Python `value.format(**format_args)` (line 180). -/
def pyFormat (ns : List (String × String)) (s : List Char) :
    Except Err (List Char) :=
  formatScan ns s false []

/-- The string-valued entries of a properties dict
(`Scope.get_interpolation_values` lines 224-226 keeps exactly the
`basestring` values). -/
def strProps (ps : Props) : List (String × String) :=
  ps.filterMap (fun p =>
    match p.2 with
    | Value.str s => some (p.1, s)
    | _ => none)

/-- `scope.get_interpolation_values(public_only=True)` along the ancestor
chain: each level starts from its own parent's values and overwrites them
with its own string properties; a `Private` ancestor contributes only its
own strings (its related-scope list is empty). -/
def interpolationValuesUp : List Frame → List (String × String)
  | [] => []
  | f :: rest =>
    if f.priv then dUpdate [] (strProps f.props)
    else dUpdate (interpolationValuesUp rest) (strProps f.props)

/-- `Scope.get_interpolation_values()` (lines 217-228) for a located scope:
`result` starts empty, is updated with the parent's values (lowest
priority), then with each `Private` child's own strings, and finally with
this node's own strings (highest priority). -/
def get_interpolation_values (chain : List Frame) (self : Scope) :
    List (String × String) :=
  let base :=
    if self.priv then []
    else
      (self.children.filter Scope.priv).foldl
        (fun acc c => dUpdate acc (strProps c.props))
        (interpolationValuesUp chain)
  dUpdate base (strProps self.props)

mutual

/-- `Scope.interpolate` (lines 171-191) on the value model, recursing into
lists and dicts; strings are formatted against the supplied namespace;
other values (including a deferred `_Renderer`) are returned unchanged.
Callable values are outside the model. -/
def interpValue (ns : List (String × String)) : Value → Except Err Value
  | Value.str s => do
    let t ← pyFormat ns s.data
    Except.ok (Value.str (String.mk t))
  | Value.vlist xs => do
    let t ← interpList ns xs
    Except.ok (Value.vlist t)
  | Value.vdict m => do
    let t ← interpDict ns m
    Except.ok (Value.vdict t)
  | v => Except.ok v

def interpList (ns : List (String × String)) :
    List Value → Except Err (List Value)
  | [] => Except.ok []
  | v :: vs => do
    let w ← interpValue ns v
    let ws ← interpList ns vs
    Except.ok (w :: ws)

def interpDict (ns : List (String × String)) :
    List (String × Value) → Except Err (List (String × Value))
  | [] => Except.ok []
  | p :: m => do
    let w ← interpValue ns p.2
    let ws ← interpDict ns m
    Except.ok ((p.1, w) :: ws)

end

/-- `Scope.interpolate(value)` for a located scope: the namespace is the
scope's accumulated interpolation values. -/
def interpolate (chain : List Frame) (self : Scope) (v : Value) :
    Except Err Value :=
  interpValue (get_interpolation_values chain self) v

/-- `Scope.get_interpolated(name, default)` (lines 163-169): resolve, then
interpolate the result (`None` interpolates to `None`). -/
def get_interpolated (chain : List Frame) (self : Scope) (name : String)
    (default : Option Value) : Except Err (Option Value) := do
  let r ← get chain self name default
  match r with
  | none => Except.ok none
  | some v => do
    let t ← interpValue (get_interpolation_values chain self) v
    Except.ok (some t)

-- ### Deferred rendering and prefixed-property extraction

mutual

/-- `Scope.render` (lines 201-215): a string becomes a `_Renderer` deferred
template capturing the scope; lists and dicts are rendered element-wise;
every other value is returned unchanged. -/
def renderValue : Value → Value
  | Value.str s => Value.deferredTmpl s
  | Value.vlist xs => Value.vlist (renderList xs)
  | Value.vdict m => Value.vdict (renderDict m)
  | v => v

def renderList : List Value → List Value
  | [] => []
  | v :: vs => renderValue v :: renderList vs

def renderDict : List (String × Value) → List (String × Value)
  | [] => []
  | p :: m => (p.1, renderValue p.2) :: renderDict m

end

/-- `Scope.get_rendered(name, default)` (lines 193-199). -/
def get_rendered (chain : List Frame) (self : Scope) (name : String)
    (default : Option Value) : Except Err (Option Value) := do
  let r ← get chain self name default
  match r with
  | none => Except.ok none
  | some v => Except.ok (some (renderValue v))

/-- Python `key.startswith(lead)`. -/
def strLeads (k lead : String) : Bool :=
  lead.data.isPrefixOf k.data

/-- The keys of `properties` that start with `prefix + "_"`
(`get_properties_names` lines 262-264), in dict insertion order. -/
def ownNames (ps : Props) (pfx : String) : List String :=
  (ps.map Prod.fst).filter (fun k => strLeads k (pfx ++ "_"))

/-- Python set union for the name sets, modeled with insertion order (the
first occurrence is kept).  CPython's set iteration order is arbitrary;
the statements proved below do not depend on the order chosen. -/
def setUnion (a b : List String) : List String :=
  a ++ b.filter (fun k => !(a.contains k))

/-- `scope.get_properties_names(prefix, public_only=True)` along the
ancestor chain: each level unions its parent's names with its own
prefixed keys; a `Private` ancestor contributes only its own keys. -/
def namesUp (pfx : String) : List Frame → List String
  | [] => []
  | f :: rest =>
    setUnion (if f.priv then [] else namesUp pfx rest) (ownNames f.props pfx)

/-- `Scope.get_properties_names(prefix)` (lines 255-266) on a located
scope: the union over related scopes (parent chain, then `Private`
children), then this node's own prefixed keys. -/
def get_properties_names (chain : List Frame) (self : Scope) (pfx : String) :
    List String :=
  let fromRelated :=
    if self.priv then []
    else
      (self.children.filter Scope.priv).foldl
        (fun acc c => setUnion acc (ownNames c.props pfx))
        (namesUp pfx chain)
  setUnion fromRelated (ownNames self.props pfx)

/-- `key[len(prefix) + 1:]` (lines 291, 295, 299). -/
def stripKey (pfx k : String) : String :=
  String.mk (k.data.drop (pfx.data.length + 1))

/-- One assignment loop of `_get_prefixed_properties`: for each key,
`result[key_without_prefix] = fetch(key)` into the shared result dict. -/
def assignStripped (pfx : String) (fetch : String → Except Err (Option Value)) :
    List String → List (String × Option Value) →
    Except Err (List (String × Option Value))
  | [], result => Except.ok result
  | k :: ks, result => do
    let v ← fetch k
    assignStripped pfx fetch ks (dInsert result (stripKey pfx k) v)

/-- `Scope._get_prefixed_properties(prefixes, rendered, raw)` (lines
272-303).  For each prefix the discovered names are partitioned: names
listed in `raw` are fetched with plain `get`, names listed in `rendered`
with `get_rendered`, all remaining names with `get_interpolated`; the
stripped keys are assigned into one shared result dict, a later
assignment silently overwriting an earlier one.  Python iterates a dict
keyed by prefix, so the processing order across prefixes is arbitrary;
it is modeled as the argument order. -/
def get_prefixed_properties (chain : List Frame) (self : Scope) :
    List String → List String → List String →
    List (String × Option Value) → Except Err (List (String × Option Value))
  | [], _, _, result => Except.ok result
  | pfx :: rest, rendered, raw, result => do
    let names := get_properties_names chain self pfx
    let rawIt := names.filter (fun k => raw.contains k)
    let renderedIt := names.filter (fun k => rendered.contains k)
    let interpIt :=
      names.filter (fun k => !(raw.contains k) && !(rendered.contains k))
    let r1 ← assignStripped pfx (fun k => get_interpolated chain self k none)
      interpIt result
    let r2 ← assignStripped pfx (fun k => get chain self k none) rawIt r1
    let r3 ← assignStripped pfx (fun k => get_rendered chain self k none)
      renderedIt r2
    get_prefixed_properties chain self rest rendered raw r3

/-- The stripped-key assignments `_get_prefixed_properties` performs for
one prefix, in loop order (lines 289-300: the interpolated names, then the
raw names, then the rendered names), each paired with the fetch the loop
performs for it. -/
def prefixAssignments (chain : List Frame) (self : Scope)
    (rendered raw : List String) (pfx : String) :
    List (String × Except Err (Option Value)) :=
  let names := get_properties_names chain self pfx
  (names.filter (fun k => !(raw.contains k) && !(rendered.contains k))).map
      (fun k => (stripKey pfx k, get_interpolated chain self k none)) ++
  ((names.filter (fun k => raw.contains k)).map
      (fun k => (stripKey pfx k, get chain self k none)) ++
   (names.filter (fun k => rendered.contains k)).map
      (fun k => (stripKey pfx k, get_rendered chain self k none)))

/-- All assignments of one extraction call, prefixes in processing
order. -/
def allAssignments (chain : List Frame) (self : Scope)
    (rendered raw : List String) :
    List String → List (String × Except Err (Option Value))
  | [] => []
  | pfx :: rest =>
    prefixAssignments chain self rendered raw pfx ++
      allAssignments chain self rendered raw rest

/-- The fetch of the last assignment to a given stripped key, if any: the
assignment whose value ends up in the result dict when the call
succeeds. -/
def lastFetch : List (String × Except Err (Option Value)) → String →
    Option (Except Err (Option Value))
  | [], _ => none
  | p :: rest, k =>
    match lastFetch rest k with
    | some fv => some fv
    | none => if k = p.1 then some p.2 else none

/-- Running a list of assignments in order into the result dict,
propagating the first fetch failure. -/
def runAssignments : List (String × Except Err (Option Value)) →
    List (String × Option Value) → Except Err (List (String × Option Value))
  | [], result => Except.ok result
  | p :: rest, result => do
    let v ← p.2
    runAssignments rest (dInsert result p.1 v)

-- ### Ambient construction stack

/-- The ambient construction stack: `Scope._top` (line 63) together with
the parent links recorded at construction (`self._parent = Scope._top`,
line 66).  Scopes are identified by creation index: scope `i`'s parent is
`parents[i]`, and `parents.length` is the next fresh id.  The children
lists and property dicts play no role in the stack discipline. -/
structure BuildState where
  top : Option Nat
  parents : List (Option Nat)

/-- `Scope.__init__` (lines 65-70): the new scope records the current top
as its parent; returns the new scope's id. -/
def newScope (s : BuildState) : BuildState × Nat :=
  (⟨s.top, s.parents ++ [s.top]⟩, s.parents.length)

/-- `Scope.__enter__` (lines 72-75): `assert Scope._top != self` — pushing
the scope that is already the active top fails (`IllegalReentry`);
otherwise the scope becomes the top. -/
def enterScope (s : BuildState) (n : Nat) : Except Err BuildState :=
  if s.top = some n then Except.error Err.illegalReentry
  else Except.ok ⟨some n, s.parents⟩

/-- `Scope.__exit__` (lines 77-78): the top becomes the exiting scope's
parent as recorded at its construction. -/
def exitScope (s : BuildState) (n : Nat) : BuildState :=
  ⟨(s.parents[n]?).join, s.parents⟩

/-- The construction-time operations a `with` body may perform on the
ambient stack: constructing a scope, entering one, exiting one. -/
inductive BOp where
  | newS
  | enterS (n : Nat)
  | exitS (n : Nat)

def applyOp (s : BuildState) : BOp → Except Err BuildState
  | BOp.newS => Except.ok (newScope s).1
  | BOp.enterS n => enterScope s n
  | BOp.exitS n => Except.ok (exitScope s n)

/-- Runs a sequence of stack operations, stopping at the first failure but
keeping the state reached at that point (an exception raised inside a
Python `with` block propagates, and the block's `__exit__` still runs on
that state). -/
def applyOps (s : BuildState) : List BOp → BuildState × Option Err
  | [] => (s, none)
  | op :: ops =>
    match applyOp s op with
    | Except.ok s' => applyOps s' ops
    | Except.error e => (s, some e)

/-- `with Scope(): body` — `__init__`, `__enter__`, the body, then
`__exit__` on both the normal and the failing path (the body's failure, if
any, is reported alongside the final state). -/
def withScope (s0 : BuildState) (body : List BOp) :
    Except Err (BuildState × Option Err) :=
  let sn := newScope s0
  match enterScope sn.1 sn.2 with
  | Except.error e => Except.error e
  | Except.ok s2 =>
    let r := applyOps s2 body
    Except.ok (exitScope r.1 sn.2, r.2)

/-- Well-formedness of the ambient state: the top, when set, refers to an
already-constructed scope. -/
def topOk (s : BuildState) : Prop :=
  ∀ m, s.top = some m → m < s.parents.length

-- ### Whole-tree resolution by path (for the private-visibility claim)

/-- The subtree at a path of child indices. -/
def atPath : Scope → List Nat → Option Scope
  | t, [] => some t
  | t, i :: q =>
    match t.children[i]? with
    | some c => atPath c q
    | none => none

/-- The ancestor frames (privacy flag and properties) of the node at a
path, nearest ancestor first — exactly what the parent traversal of
`Scope.get` reads. -/
def framesTo : Scope → List Nat → List Frame
  | _, [] => []
  | t, i :: q =>
    match t.children[i]? with
    | some c => framesTo c q ++ [⟨t.priv, t.props⟩]
    | none => []

/-- `scope.get(name, default)` invoked on the node at `path` inside the
tree `t` (`Except.ok none` for a path that leads nowhere). -/
def getAtPath (t : Scope) (path : List Nat) (name : String)
    (default : Option Value) : Except Err (Option Value) :=
  match atPath t path with
  | some s => get (framesTo t path) s name default
  | none => Except.ok none

/-- Apply `g` to the `i`-th child, leaving the rest unchanged. -/
def updChildren (g : Scope → Scope) : Nat → List Scope → List Scope
  | _, [] => []
  | 0, c :: cs => g c :: cs
  | n + 1, c :: cs => c :: updChildren g n cs

/-- Replace the properties of the node at a path, leaving all privacy
flags and the tree shape unchanged. -/
def setPropsAt : List Nat → Props → Scope → Scope
  | [], ps2, Scope.node pr _ cs => Scope.node pr ps2 cs
  | i :: q, ps2, Scope.node pr ps cs =>
    Scope.node pr ps (updChildren (setPropsAt q ps2) i cs)

/-- Everything `Scope.get` reads from the queried node itself: its privacy
flag, its properties, and its children's privacy flags and properties. -/
def nodeView : Scope → Bool × Props × List (Bool × Props)
  | Scope.node pr ps cs => (pr, ps, cs.map (fun c => (c.priv, c.props)))

-- ### Heap-instrumented resolution (for the copy-isolation claim)

/-- A Python list or dict object on the heap.  Elements are modeled as
immutable values: `value[:]` and `value.copy()` are shallow copies, and
the copy-isolation claim is about top-level mutation (appending to the
returned list, adding a key to the returned dict). -/
inductive Obj where
  | olist (xs : List Value)
  | odict (m : List (String × Value))

/-- The heap of collection objects, identified by allocation index. -/
abbrev Heap := List Obj

/-- A stored property value with Python object identity: a scalar is
immediate, a list/dict is a reference to a heap object. -/
inductive HV where
  | scal (v : Value)
  | href (i : Nat)

abbrev HProps := List (String × HV)

/-- An ancestor frame in the heap model. -/
structure HFrame where
  priv : Bool
  props : HProps

/-- A scope node in the heap model. -/
inductive HScope where
  | node (priv : Bool) (props : HProps) (children : List HScope)

def HScope.priv : HScope → Bool
  | HScope.node p _ _ => p

def HScope.props : HScope → HProps
  | HScope.node _ ps _ => ps

def HScope.children : HScope → List HScope
  | HScope.node _ _ cs => cs

/-- Dereference a heap object (an out-of-range reference cannot occur in a
well-formed state). -/
def hlookupObj (h : Heap) (i : Nat) : Except Err Obj :=
  match h[i]? with
  | some o => Except.ok o
  | none => Except.error Err.invalidRef

/-- Allocate a new object (`value[:]`, `value.copy()`). -/
def alloc (h : Heap) (o : Obj) : Heap × Nat :=
  (h ++ [o], h.length)

/-- In the heap model a reference always denotes a list/dict object, so
`isinstance(value, list) or isinstance(value, dict)` is exactly "is a
reference". -/
def isScalarHV : Option HV → Bool
  | some (HV.scal _) => true
  | some (HV.href _) => false
  | none => false

/-- One merge step of `Scope.get` with explicit object identity: when the
related value `sv` is (a reference to) a list object,
`scope_value.extend(value)` mutates that object in place, reading `acc`'s
elements (lines 142-145); a dict is updated in place (lines 147-150); a
scalar `sv` replaces `acc` (line 152); the `isinstance` asserts fail as
`typeMismatch`. -/
def hMergeInto (h : Heap) (acc sv : Option HV) :
    Except Err (Heap × Option HV) :=
  match sv with
  | none => Except.ok (h, acc)
  | some (HV.scal v) => Except.ok (h, some (HV.scal v))
  | some (HV.href j) => do
    let o ← hlookupObj h j
    match o with
    | Obj.olist xs =>
      match acc with
      | none => Except.ok (h, some (HV.href j))
      | some (HV.href k) => do
        let oa ← hlookupObj h k
        match oa with
        | Obj.olist ys =>
          Except.ok (h.set j (Obj.olist (xs ++ ys)), some (HV.href j))
        | Obj.odict _ => Except.error Err.typeMismatch
      | some (HV.scal _) => Except.error Err.typeMismatch
    | Obj.odict m =>
      match acc with
      | none => Except.ok (h, some (HV.href j))
      | some (HV.href k) => do
        let oa ← hlookupObj h k
        match oa with
        | Obj.odict mm =>
          Except.ok (h.set j (Obj.odict (dUpdate m mm)), some (HV.href j))
        | Obj.olist _ => Except.error Err.typeMismatch
      | some (HV.scal _) => Except.error Err.typeMismatch

/-- The copy on return (`value[:]` line 156, `value.copy()` line 159): a
collection is copied into a freshly allocated object; a scalar or `None`
is returned as-is. -/
def hCopyOut (h : Heap) (v : Option HV) : Except Err (Heap × Option HV) :=
  match v with
  | some (HV.href k) => do
    let o ← hlookupObj h k
    Except.ok ((alloc h o).1, some (HV.href (alloc h o).2))
  | _ => Except.ok (h, v)

/-- Heap-instrumented `scope.get(name, public_only=True)` along the
ancestor chain: `getUp` with every merge mutating the fresh copy produced
by the recursive call, and every non-scalar return passing through the
copy-on-return. -/
def getUpH (name : String) : List HFrame → Heap → Except Err (Heap × Option HV)
  | [], h => Except.ok (h, none)
  | f :: rest, h =>
    let v0 := dLookup f.props name
    if isScalarHV v0 then Except.ok (h, v0)
    else do
      let pr ← if f.priv then Except.ok (h, none) else getUpH name rest h
      let mr ← hMergeInto pr.1 v0 pr.2
      hCopyOut mr.1 mr.2

/-- The loop over `Private` children in the heap model: each private
child's `get` returns a fresh copy of its stored collection (or its
scalar unchanged), which is then merged into the running value. -/
def mergeChildrenH (name : String) : List HScope → Heap → Option HV →
    Except Err (Heap × Option HV)
  | [], h, acc => Except.ok (h, acc)
  | c :: cs, h, acc =>
    if c.priv then do
      let sv ← hCopyOut h (dLookup c.props name)
      let mr ← hMergeInto sv.1 acc sv.2
      mergeChildrenH name cs mr.1 mr.2
    else mergeChildrenH name cs h acc

/-- Heap-instrumented `Scope.get(name)` without the default substitution:
a scalar local value is returned immediately, otherwise the parent's
public resolution and the private children's values are merged and the
result is copied out, so a collection result is always a freshly
allocated object. -/
def getOptH (chain : List HFrame) (self : HScope) (name : String)
    (h : Heap) : Except Err (Heap × Option HV) :=
  let v0 := dLookup self.props name
  if isScalarHV v0 then Except.ok (h, v0)
  else if self.priv then hCopyOut h v0
  else do
    let pr ← getUpH name chain h
    let mr ← hMergeInto pr.1 v0 pr.2
    let cr ← mergeChildrenH name self.children mr.1 mr.2
    hCopyOut cr.1 cr.2

/-- Reading a stored value through the heap as an immutable value. -/
def concrHV (h : Heap) : HV → Value
  | HV.scal v => v
  | HV.href i =>
    match h[i]? with
    | some (Obj.olist xs) => Value.vlist xs
    | some (Obj.odict m) => Value.vdict m
    | none => Value.int 0

def concrProps (h : Heap) (ps : HProps) : Props :=
  ps.map (fun p => (p.1, concrHV h p.2))

def concrChain (h : Heap) (chain : List HFrame) : List Frame :=
  chain.map (fun f => ⟨f.priv, concrProps h f.props⟩)

/-- The part of a heap scope that `get` consults, concretized (children of
children are never read by `get`). -/
def concrNode (h : Heap) (t : HScope) : Scope :=
  Scope.node t.priv (concrProps h t.props)
    (t.children.map (fun c => Scope.node c.priv (concrProps h c.props) []))

/-- What the caller observes of a heap-instrumented `get`: the returned
value read back through the final heap. -/
def resultValue (r : Except Err (Heap × Option HV)) : Except Err (Option Value) :=
  match r with
  | Except.ok hv => Except.ok (hv.2.map (concrHV hv.1))
  | Except.error e => Except.error e

/-- Well-formedness of a stored value against a heap of size `n`: scalar
slots hold actual scalars, references are in range. -/
def wfHV (n : Nat) : HV → Prop
  | HV.scal v => isScalarV v = true
  | HV.href i => i < n

def wfProps (n : Nat) (ps : HProps) : Prop := ∀ p ∈ ps, wfHV n p.2

def wfChain (n : Nat) (chain : List HFrame) : Prop :=
  ∀ f ∈ chain, wfProps n f.props

def wfNode (n : Nat) (t : HScope) : Prop :=
  wfProps n t.props ∧ ∀ c ∈ t.children, wfProps n c.props

/-- The footprint of one heap-instrumented call with input heap `h`,
output heap `h'` and returned value `rv`: the heap only grows, every
pre-existing object is untouched, and a returned reference is fresh. -/
def heapStep (h h' : Heap) (rv : Option HV) : Prop :=
  h.length ≤ h'.length ∧ (∀ i, i < h.length → h'[i]? = h[i]?) ∧
  (∀ j, rv = some (HV.href j) → h.length ≤ j ∧ j < h'.length)

-- ### General lemmas about the resolution primitives

theorem dLookup_nil {α : Type} (k : String) : dLookup ([] : List (String × α)) k = none := rfl

theorem dLookup_cons {α : Type} (p : String × α) (ps : List (String × α)) (k : String) :
    dLookup (p :: ps) k = if p.1 = k then some p.2 else dLookup ps k := by
  by_cases h : p.1 = k <;> simp [dLookup, List.find?, h]

theorem dLookup_append {α : Type} (a c : List (String × α)) (k : String) :
    dLookup (a ++ c) k =
      match dLookup a k with
      | some v => some v
      | none => dLookup c k := by
  induction a with
  | nil => simp [dLookup]
  | cons p ps ih =>
    by_cases h : p.1 = k <;> simp [dLookup_cons, h, ih]

theorem dLookup_map_ne {α : Type} (ps : List (String × α)) (k k' : String) (v : α)
    (hne : k' ≠ k) :
    dLookup (ps.map (fun q => if q.1 = k then (k, v) else q)) k' = dLookup ps k' := by
  induction ps with
  | nil => rfl
  | cons p ps ih =>
    by_cases h : p.1 = k
    · simp only [List.map_cons, h, if_pos]
      rw [dLookup_cons, dLookup_cons, h]
      simp only [ih]
      have : ¬(k = k') := fun hc => hne hc.symm
      simp [this, hne]
    · simp only [List.map_cons, h, if_neg, ite_false]
      rw [dLookup_cons, dLookup_cons, ih]

theorem dLookup_map_eq {α : Type} (ps : List (String × α)) (k : String) (v : α)
    (hany : ps.any (fun q => q.1 = k) = true) :
    dLookup (ps.map (fun q => if q.1 = k then (k, v) else q)) k = some v := by
  induction ps with
  | nil => simp at hany
  | cons p ps ih =>
    by_cases h : p.1 = k
    · simp only [List.map_cons, h, if_pos]
      rw [dLookup_cons]
      simp
    · simp only [List.any_cons, Bool.or_eq_true, decide_eq_true_eq, h, false_or] at hany
      simp only [List.map_cons, h, if_neg, ite_false]
      rw [dLookup_cons]
      simp only [h, if_neg, ite_false]
      exact ih hany

theorem dLookup_eq_none_of_not_any {α : Type} (ps : List (String × α)) (k : String)
    (h : ¬ ps.any (fun q => q.1 = k) = true) :
    dLookup ps k = none := by
  induction ps with
  | nil => rfl
  | cons p ps ih =>
    simp only [List.any_cons, Bool.or_eq_true, decide_eq_true_eq] at h
    push_neg at h
    rw [dLookup_cons]
    simp only [h.1, if_neg, ite_false]
    exact ih (by simpa using h.2)

theorem dLookup_dInsert {α : Type} (b : List (String × α)) (k k' : String) (v : α) :
    dLookup (dInsert b k v) k' = if k' = k then some v else dLookup b k' := by
  by_cases hany : b.any (fun q => q.1 = k) = true
  · simp only [dInsert, hany, if_pos]
    by_cases hk : k' = k
    · subst hk; simp [dLookup_map_eq b k' v hany]
    · simp [dLookup_map_ne b k k' v hk, hk]
  · have heq : dInsert b k v = b ++ [(k, v)] := by simp [dInsert, hany]
    rw [heq, dLookup_append]
    by_cases hk : k' = k
    · subst hk
      rw [dLookup_eq_none_of_not_any b k' hany]
      simp [dLookup_cons]
    · have : ¬(k = k') := fun hc => hk hc.symm
      simp only [dLookup_cons, this, if_neg, ite_false, dLookup_nil, hk]
      cases dLookup b k' <;> simp

theorem dLookup_dUpdate {α : Type} (base m : List (String × α)) (k : String)
    (hnd : keysNodup m) :
    dLookup (dUpdate base m) k = firstSome (dLookup m k) (dLookup base k) := by
  induction m generalizing base with
  | nil => simp [dUpdate, dLookup, firstSome]
  | cons p ps ih =>
    have hnd' : keysNodup ps := by
      simpa [keysNodup] using (List.nodup_cons.mp (by simpa [keysNodup] using hnd)).2
    have hnotin : p.1 ∉ ps.map Prod.fst :=
      (List.nodup_cons.mp (by simpa [keysNodup] using hnd)).1
    show dLookup (dUpdate (dInsert base p.1 p.2) ps) k = _
    rw [ih (dInsert base p.1 p.2) hnd']
    by_cases hk : k = p.1
    · have hnone : dLookup ps k = none := by
        apply dLookup_eq_none_of_not_any
        intro hc
        simp only [List.any_eq_true, decide_eq_true_eq] at hc
        obtain ⟨q, hq, hqk⟩ := hc
        exact hnotin (hk ▸ hqk ▸ List.mem_map_of_mem Prod.fst hq)
      rw [hnone]
      show dLookup (dInsert base p.1 p.2) k = _
      rw [dLookup_dInsert, if_pos hk, dLookup_cons, if_pos hk.symm]
      rfl
    · rw [dLookup_dInsert]
      simp only [hk, if_neg, ite_false]
      rw [dLookup_cons]
      have : ¬(p.1 = k) := fun hc => hk hc.symm
      simp only [this, if_neg, ite_false]

theorem exbind_ok {α β : Type} (a : α) (f : α → Except Err β) :
    (Except.ok a >>= f : Except Err β) = f a := rfl

theorem exbind_error {α β : Type} (e : Err) (f : α → Except Err β) :
    ((Except.error e : Except Err α) >>= f) = Except.error e := rfl

theorem mergeChildren_of_none (name : String) (cs : List Scope) (acc : Option Value)
    (h : ∀ c ∈ cs, c.priv = true → dLookup c.props name = none) :
    mergeChildren name cs acc = Except.ok acc := by
  induction cs generalizing acc with
  | nil => rfl
  | cons c cs ih =>
    have hcs : ∀ c' ∈ cs, c'.priv = true → dLookup c'.props name = none :=
      fun c' hm => h c' (List.mem_cons_of_mem c hm)
    by_cases hc : c.priv = true
    · simp only [mergeChildren, hc, if_pos, h c (List.mem_cons_self c cs) hc,
        mergeInto, exbind_ok]
      exact ih acc hcs
    · simp only [mergeChildren, hc, Bool.false_eq_true, if_neg, ite_false]
      exact ih acc hcs

theorem mergeChildren_lists (name : String) (cs : List Scope) (acc : List Value)
    (h : ∀ c ∈ cs, c.priv = true → listOrNone (dLookup c.props name) = true) :
    mergeChildren name cs (some (Value.vlist acc)) =
      Except.ok (some (Value.vlist (privListAcc name cs ++ acc))) := by
  induction cs generalizing acc with
  | nil => simp [mergeChildren, privListAcc]
  | cons c cs ih =>
    have hcs : ∀ c' ∈ cs, c'.priv = true → listOrNone (dLookup c'.props name) = true :=
      fun c' hm => h c' (List.mem_cons_of_mem c hm)
    by_cases hc : c.priv = true
    · have hcl := h c (List.mem_cons_self c cs) hc
      cases hl : dLookup c.props name with
      | none =>
        simp only [mergeChildren, hc, if_pos, hl, mergeInto, exbind_ok]
        rw [ih acc hcs]
        simp [privListAcc, hc, hl]
      | some v =>
        rw [hl] at hcl
        cases v with
        | vlist zs =>
          simp only [mergeChildren, hc, if_pos, hl, mergeInto, exbind_ok]
          rw [ih (zs ++ acc) hcs]
          simp [privListAcc, hc, hl, List.append_assoc]
        | str s => simp [listOrNone] at hcl
        | int n => simp [listOrNone] at hcl
        | bool b => simp [listOrNone] at hcl
        | vdict m => simp [listOrNone] at hcl
        | deferredTmpl f => simp [listOrNone] at hcl
    · simp only [mergeChildren, hc, Bool.false_eq_true, if_neg, ite_false]
      rw [ih acc hcs]
      simp [privListAcc, hc]

/-- Unfolding of `getOpt` for a non-private scope whose local value is not a
scalar: the parent's public resolution is merged into the local value, then
the private children's values. -/
theorem getOpt_merge (chain : List Frame) (props : Props) (children : List Scope)
    (name : String) (hsc : isScalarOpt (dLookup props name) = false) :
    getOpt chain (Scope.node false props children) name =
      (getUp name chain >>= fun pv =>
        mergeInto (dLookup props name) pv >>= fun v1 =>
        mergeChildren name children v1) := by
  simp only [getOpt, Scope.props, Scope.priv, Scope.children, hsc,
    Bool.false_eq_true, if_neg, ite_false]

-- ### Claim theorems

/-- C1 (counterexample): the spec's own scenario — root scope sets
`tag_list = ["base"]`, a child scope sets `tag_list = ["extra"]` — does
*not* yield `["extra", "base"]`: `scope_value.extend(value)` in
`Scope.get` (line 145) appends the local entries *after* the inherited
copy, so `child.get("tag_list")` is `["base", "extra"]`. -/
theorem c1_counterexample :
    get [⟨false, [("tag_list", Value.vlist [Value.str "base"])]⟩]
        (Scope.node false [("tag_list", Value.vlist [Value.str "extra"])] [])
        "tag_list" none =
      Except.ok (some (Value.vlist [Value.str "base", Value.str "extra"])) ∧
    Except.ok (some (Value.vlist [Value.str "base", Value.str "extra"])) ≠
      (Except.ok (some (Value.vlist [Value.str "extra", Value.str "base"])) :
        Except Err (Option Value)) := by
  constructor
  · rfl
  · intro h
    have h1 := Except.ok.inj h
    have h2 := Option.some.inj h1
    have h3 := Value.vlist.inj h2
    have h4 := (List.cons.inj h3).1
    have h5 := Value.str.inj h4
    exact absurd h5 (by decide)

/-- C1 (amended): for every non-private scope holding a List property
locally whose ancestor chain publicly resolves it to a List and whose
private children hold it as a List or not at all, `get` returns the
*related* entries first and the local entries last: the private children's
contributions (later children first), then the inherited list, then the
local list.  In the spec's scenario the result is `["base", "extra"]`. -/
theorem c1_related_before_local (chain : List Frame) (props : Props)
    (children : List Scope) (name : String) (d : Option Value) (xs ys : List Value)
    (hloc : dLookup props name = some (Value.vlist xs))
    (hup : getUp name chain = Except.ok (some (Value.vlist ys)))
    (hch : ∀ c ∈ children, c.priv = true → listOrNone (dLookup c.props name) = true) :
    get chain (Scope.node false props children) name d =
      Except.ok (some (Value.vlist (privListAcc name children ++ ys ++ xs))) := by
  have hopt : getOpt chain (Scope.node false props children) name =
      Except.ok (some (Value.vlist (privListAcc name children ++ ys ++ xs))) := by
    rw [getOpt_merge chain props children name (by rw [hloc]; rfl), hup, exbind_ok,
      hloc]
    show (mergeInto (some (Value.vlist xs)) (some (Value.vlist ys)) >>= _) = _
    simp only [mergeInto, exbind_ok]
    rw [mergeChildren_lists name children (ys ++ xs) hch, List.append_assoc]
  simp [get, hopt]

/-- C1 (witness for the amended theorem): the spec scenario instantiated —
the inherited `"base"` entry comes before the local `"extra"` entry. -/
theorem c1_witness :
    get [⟨false, [("tag_list", Value.vlist [Value.str "base"])]⟩]
        (Scope.node false [("tag_list", Value.vlist [Value.str "extra"])] [])
        "tag_list" none =
      Except.ok (some (Value.vlist
        (privListAcc "tag_list" [] ++ [Value.str "base"] ++ [Value.str "extra"]))) :=
  c1_related_before_local _ _ _ _ _ [Value.str "extra"] [Value.str "base"]
    rfl rfl (by intro c hc; simp at hc)

/-- C4: for every non-private scope holding a Map property locally (with
unique keys, as a Python dict has) whose ancestor chain publicly resolves
the same name to a Map, and whose private children do not define the name,
`get` returns the ancestor map updated with the local entries
(`scope_value.update(value)`, line 150), and on every key the local value
wins when present. -/
theorem c4_map_local_wins (chain : List Frame) (props : Props)
    (children : List Scope) (name : String) (d : Option Value)
    (locm ancm : List (String × Value))
    (hloc : dLookup props name = some (Value.vdict locm))
    (hnd : keysNodup locm)
    (hup : getUp name chain = Except.ok (some (Value.vdict ancm)))
    (hch : ∀ c ∈ children, c.priv = true → dLookup c.props name = none) :
    get chain (Scope.node false props children) name d =
      Except.ok (some (Value.vdict (dUpdate ancm locm))) ∧
    (∀ k, dLookup (dUpdate ancm locm) k =
      firstSome (dLookup locm k) (dLookup ancm k)) := by
  constructor
  · have hopt : getOpt chain (Scope.node false props children) name =
        Except.ok (some (Value.vdict (dUpdate ancm locm))) := by
      rw [getOpt_merge chain props children name (by rw [hloc]; rfl), hup, exbind_ok,
        hloc]
      show (mergeInto (some (Value.vdict locm)) (some (Value.vdict ancm)) >>= _) = _
      simp only [mergeInto, exbind_ok]
      exact mergeChildren_of_none name children _ hch
    simp [get, hopt]
  · intro k
    exact dLookup_dUpdate ancm locm k hnd

/-- C4 (witness): ancestor map `{a: 1, b: 2}`, local map `{b: 9, c: 3}` —
the merged map keeps `a` from the ancestor and the local `b` wins. -/
theorem c4_witness :
    get [⟨false, [("m", Value.vdict [("a", Value.int 1), ("b", Value.int 2)])]⟩]
        (Scope.node false [("m", Value.vdict [("b", Value.int 9), ("c", Value.int 3)])] [])
        "m" none =
      Except.ok (some (Value.vdict
        (dUpdate [("a", Value.int 1), ("b", Value.int 2)]
          [("b", Value.int 9), ("c", Value.int 3)]))) ∧
    dLookup (dUpdate [("a", Value.int 1), ("b", Value.int 2)]
        [("b", Value.int 9), ("c", Value.int 3)]) "b" = some (Value.int 9) := by
  have h := c4_map_local_wins
    [⟨false, [("m", Value.vdict [("a", Value.int 1), ("b", Value.int 2)])]⟩]
    [("m", Value.vdict [("b", Value.int 9), ("c", Value.int 3)])] [] "m" none
    [("b", Value.int 9), ("c", Value.int 3)] [("a", Value.int 1), ("b", Value.int 2)]
    rfl (by simp [keysNodup]) rfl (by intro c hc; simp at hc)
  exact ⟨h.1, (h.2 "b").trans rfl⟩

/-- C9: a `Private` scope resolves only its own properties —
`Private._get_related_scopes` returns `[]` (line 332-333), so for any name
absent from its own mapping, `get` returns the supplied default no matter
what the ancestor chain or the children contain. -/
theorem c9_private_resolves_own_only (chain : List Frame) (props : Props)
    (children : List Scope) (name : String) (d : Option Value)
    (hloc : dLookup props name = none) :
    get chain (Scope.node true props children) name d = Except.ok d := by
  simp [get, getOpt, Scope.props, Scope.priv, hloc, isScalarOpt]

/-- C9 (witness): a private scope with no properties under a parent that
defines `tag_list` still returns the default `7`. -/
theorem c9_witness :
    get [⟨false, [("tag_list", Value.vlist [Value.str "base"])]⟩]
        (Scope.node true [] []) "tag_list" (some (Value.int 7)) =
      Except.ok (some (Value.int 7)) :=
  c9_private_resolves_own_only _ _ _ _ _ rfl

/-- C10: for every non-private scope holding a List property locally whose
ancestor chain publicly resolves the name to a plain scalar (neither list
nor dict), and whose private children do not define the name, `get`
returns the ancestor's scalar: line 152 (`value = scope_value`) silently
replaces the local list and no error is raised. -/
theorem c10_scalar_discards_local_list (chain : List Frame) (props : Props)
    (children : List Scope) (name : String) (d : Option Value)
    (xs : List Value) (v : Value)
    (hloc : dLookup props name = some (Value.vlist xs))
    (hup : getUp name chain = Except.ok (some v))
    (hsc : isScalarV v = true)
    (hch : ∀ c ∈ children, c.priv = true → dLookup c.props name = none) :
    get chain (Scope.node false props children) name d = Except.ok (some v) := by
  have hopt : getOpt chain (Scope.node false props children) name =
      Except.ok (some v) := by
    rw [getOpt_merge chain props children name (by rw [hloc]; rfl), hup, exbind_ok,
      hloc]
    have hmi : mergeInto (some (Value.vlist xs)) (some v) = Except.ok (some v) := by
      cases v with
      | vlist zs => simp [isScalarV] at hsc
      | vdict m => simp [isScalarV] at hsc
      | str s => rfl
      | int n => rfl
      | bool b => rfl
      | deferredTmpl f => rfl
    rw [hmi, exbind_ok]
    exact mergeChildren_of_none name children _ hch
  simp [get, hopt]

/-- C10 (witness): parent `x = "s"` (scalar), child `x = [1]` (list):
the child's `get` returns `"s"` with no error. -/
theorem c10_witness :
    get [⟨false, [("x", Value.str "s")]⟩]
        (Scope.node false [("x", Value.vlist [Value.int 1])] []) "x" none =
      Except.ok (some (Value.str "s")) :=
  c10_scalar_discards_local_list _ _ _ _ _ [Value.int 1] (Value.str "s")
    rfl rfl rfl (by intro c hc; simp at hc)

/-- C6: when `get` genuinely merges (the local value is not a scalar and
the scope is not private), a List/Map clash raises the merge assertion
(`TypeMismatch`): a local list with a map inherited from the ancestor
chain, a local map with an inherited list, and any mismatch arising inside
the ancestor chain itself all make `get` fail instead of returning a
value. -/
theorem c6_type_mismatch (chain : List Frame) (props : Props)
    (children : List Scope) (name : String) (d : Option Value) :
    (∀ xs m, dLookup props name = some (Value.vlist xs) →
      getUp name chain = Except.ok (some (Value.vdict m)) →
      get chain (Scope.node false props children) name d =
        Except.error Err.typeMismatch) ∧
    (∀ m xs, dLookup props name = some (Value.vdict m) →
      getUp name chain = Except.ok (some (Value.vlist xs)) →
      get chain (Scope.node false props children) name d =
        Except.error Err.typeMismatch) ∧
    (∀ e, isScalarOpt (dLookup props name) = false →
      getUp name chain = Except.error e →
      get chain (Scope.node false props children) name d = Except.error e) := by
  refine ⟨?_, ?_, ?_⟩
  · intro xs m hloc hup
    have hopt : getOpt chain (Scope.node false props children) name =
        Except.error Err.typeMismatch := by
      rw [getOpt_merge chain props children name (by rw [hloc]; rfl), hup, exbind_ok,
        hloc]
      show (mergeInto (some (Value.vlist xs)) (some (Value.vdict m)) >>= _) = _
      simp only [mergeInto, exbind_error]
    simp [get, hopt]
  · intro m xs hloc hup
    have hopt : getOpt chain (Scope.node false props children) name =
        Except.error Err.typeMismatch := by
      rw [getOpt_merge chain props children name (by rw [hloc]; rfl), hup, exbind_ok,
        hloc]
      show (mergeInto (some (Value.vdict m)) (some (Value.vlist xs)) >>= _) = _
      simp only [mergeInto, exbind_error]
    simp [get, hopt]
  · intro e hsc hup
    have hopt : getOpt chain (Scope.node false props children) name =
        Except.error e := by
      rw [getOpt_merge chain props children name hsc, hup, exbind_error]
    simp [get, hopt]

/-- C6 (witness): local list with inherited map fails; local map with
inherited list fails; a list/map clash deeper in the chain also
propagates. -/
theorem c6_witness :
    get [⟨false, [("m", Value.vdict [("a", Value.int 1)])]⟩]
        (Scope.node false [("m", Value.vlist [])] []) "m" none =
      Except.error Err.typeMismatch ∧
    get [⟨false, [("m", Value.vlist [])]⟩]
        (Scope.node false [("m", Value.vdict [("a", Value.int 1)])] []) "m" none =
      Except.error Err.typeMismatch ∧
    get [⟨false, [("m", Value.vlist [])]⟩, ⟨false, [("m", Value.vdict [("a", Value.int 1)])]⟩]
        (Scope.node false [] []) "m" none = Except.error Err.typeMismatch := by
  refine ⟨?_, ?_, ?_⟩
  · exact (c6_type_mismatch _ _ _ "m" none).1 [] [("a", Value.int 1)] rfl rfl
  · exact (c6_type_mismatch _ _ _ "m" none).2.1 [("a", Value.int 1)] [] rfl rfl
  · exact (c6_type_mismatch _ _ _ "m" none).2.2 Err.typeMismatch rfl rfl

/-- C7: interpolating the string `"{x}-{y}"` on any scope whose accumulated
interpolation namespace maps `x` to `"a"` and `y` to `"b"` yields `"a-b"`;
if either placeholder has no entry in the namespace the interpolation
fails with `MissingKey` naming that placeholder — no default is
substituted. -/
theorem c7_interpolation (chain : List Frame) (self : Scope) :
    (dLookup (get_interpolation_values chain self) "x" = some "a" →
     dLookup (get_interpolation_values chain self) "y" = some "b" →
      interpolate chain self (Value.str "\x7bx\x7d-\x7by\x7d") =
        Except.ok (Value.str "a-b")) ∧
    (dLookup (get_interpolation_values chain self) "x" = none →
      interpolate chain self (Value.str "\x7bx\x7d-\x7by\x7d") =
        Except.error (Err.missingKey "x")) ∧
    (∀ a, dLookup (get_interpolation_values chain self) "x" = some a →
      dLookup (get_interpolation_values chain self) "y" = none →
      interpolate chain self (Value.str "\x7bx\x7d-\x7by\x7d") =
        Except.error (Err.missingKey "y")) := by
  refine ⟨?_, ?_, ?_⟩
  · intro hx hy
    simp [interpolate, interpValue, pyFormat, formatScan, hx, hy, lbrace, rbrace,
      exbind_ok, exbind_error]
  · intro hx
    simp [interpolate, interpValue, pyFormat, formatScan, hx, lbrace, rbrace,
      exbind_ok, exbind_error]
  · intro a hx hy
    simp [interpolate, interpValue, pyFormat, formatScan, hx, hy, lbrace, rbrace,
      exbind_ok, exbind_error]

/-- C7 (witness): a root defining `x="a"` with a child defining `y="b"`
interpolates to `"a-b"`; with the child instead defining nothing, `y` is
reported missing; with nothing defined at all, `x` is reported missing. -/
theorem c7_witness :
    interpolate [⟨false, [("x", Value.str "a")]⟩]
        (Scope.node false [("y", Value.str "b")] []) (Value.str "\x7bx\x7d-\x7by\x7d") =
      Except.ok (Value.str "a-b") ∧
    interpolate [⟨false, [("x", Value.str "a")]⟩] (Scope.node false [] [])
        (Value.str "\x7bx\x7d-\x7by\x7d") = Except.error (Err.missingKey "y") ∧
    interpolate [] (Scope.node false [] []) (Value.str "\x7bx\x7d-\x7by\x7d") =
      Except.error (Err.missingKey "x") := by
  refine ⟨?_, ?_, ?_⟩
  · exact (c7_interpolation [⟨false, [("x", Value.str "a")]⟩]
      (Scope.node false [("y", Value.str "b")] [])).1 rfl rfl
  · exact (c7_interpolation [⟨false, [("x", Value.str "a")]⟩]
      (Scope.node false [] [])).2.2 "a" rfl rfl
  · exact (c7_interpolation [] (Scope.node false [] [])).2.1 rfl

/-- C2 (counterexample): two prefixes `a` and `b` over a scope defining
`a_k = "1"` and `b_k = "2"` both strip to the key `k` with conflicting
values, yet `_get_prefixed_properties` raises no error at all: it has no
duplicate detection, and the extraction returns a bundle in which the
later-processed prefix's value has silently overwritten the earlier
one. -/
theorem c2_counterexample :
    get_prefixed_properties []
        (Scope.node false [("a_k", Value.str "1"), ("b_k", Value.str "2")] [])
        ["a", "b"] [] [] [] =
      Except.ok [("k", some (Value.str "2"))] ∧
    ∀ e : Err, get_prefixed_properties []
        (Scope.node false [("a_k", Value.str "1"), ("b_k", Value.str "2")] [])
        ["a", "b"] [] [] [] ≠ Except.error e := by
  refine ⟨rfl, ?_⟩
  intro e h
  rw [show get_prefixed_properties []
      (Scope.node false [("a_k", Value.str "1"), ("b_k", Value.str "2")] [])
      ["a", "b"] [] [] [] = Except.ok [("k", some (Value.str "2"))] from rfl] at h
  exact Except.noConfusion h

theorem exbind_assoc {α β γ : Type} (a : Except Err α) (f : α → Except Err β)
    (g : β → Except Err γ) :
    ((a >>= f) >>= g) = a >>= fun x => f x >>= g := by
  cases a <;> rfl

theorem assignStripped_eq_run (pfx : String)
    (fetch : String → Except Err (Option Value)) (ks : List String)
    (result : List (String × Option Value)) :
    assignStripped pfx fetch ks result =
      runAssignments (ks.map (fun k => (stripKey pfx k, fetch k))) result := by
  induction ks generalizing result with
  | nil => rfl
  | cons k ks ih =>
    simp only [assignStripped, List.map_cons, runAssignments]
    cases hf : fetch k with
    | error e => simp [hf, exbind_error]
    | ok v => simp [hf, exbind_ok, ih]

theorem runAssignments_append (a b : List (String × Except Err (Option Value)))
    (result : List (String × Option Value)) :
    runAssignments (a ++ b) result =
      (runAssignments a result >>= fun r => runAssignments b r) := by
  induction a generalizing result with
  | nil => simp [runAssignments, exbind_ok]
  | cons p a ih =>
    simp only [List.cons_append, runAssignments]
    cases hf : p.2 with
    | error e => simp [hf, exbind_error]
    | ok v => simp [hf, exbind_ok, ih]

/-- After a successful run, each key holds the value of its last
assignment; a key never assigned keeps its prior binding. -/
theorem runAssignments_lookup (asgs : List (String × Except Err (Option Value)))
    (k : String) :
    ∀ (result result' : List (String × Option Value)),
      runAssignments asgs result = Except.ok result' →
      (∀ fv, lastFetch asgs k = some fv →
        ∃ v, fv = Except.ok v ∧ dLookup result' k = some v) ∧
      (lastFetch asgs k = none → dLookup result' k = dLookup result k) := by
  induction asgs with
  | nil =>
    intro result result' hrun
    cases hrun
    exact ⟨fun fv hfv => Option.noConfusion hfv, fun _ => rfl⟩
  | cons p rest ih =>
    intro result result' hrun
    simp only [runAssignments] at hrun
    cases hf : p.2 with
    | error e =>
      rw [hf, exbind_error] at hrun
      exact Except.noConfusion hrun
    | ok v =>
      rw [hf, exbind_ok] at hrun
      obtain ⟨h1, h2⟩ := ih (dInsert result p.1 v) result' hrun
      constructor
      · intro fv hfv
        simp only [lastFetch] at hfv
        cases hlf : lastFetch rest k with
        | some fv2 =>
          rw [hlf] at hfv
          injection hfv with heq
          subst heq
          exact h1 fv2 hlf
        | none =>
          rw [hlf] at hfv
          by_cases hk : k = p.1
          · rw [if_pos hk] at hfv
            injection hfv with heq
            subst heq
            refine ⟨v, hf, ?_⟩
            rw [h2 hlf, dLookup_dInsert, if_pos hk]
          · rw [if_neg hk] at hfv
            exact Option.noConfusion hfv
      · intro hnone
        simp only [lastFetch] at hnone
        cases hlf : lastFetch rest k with
        | some fv2 =>
          rw [hlf] at hnone
          exact Option.noConfusion hnone
        | none =>
          rw [hlf] at hnone
          by_cases hk : k = p.1
          · rw [if_pos hk] at hnone
            exact Option.noConfusion hnone
          · rw [h2 hlf, dLookup_dInsert, if_neg hk]

/-- `_get_prefixed_properties` is the run, in processing order, of all the
stripped-key assignments of the call. -/
theorem get_prefixed_properties_eq_run (chain : List Frame) (self : Scope)
    (prefixes rendered raw : List String)
    (result : List (String × Option Value)) :
    get_prefixed_properties chain self prefixes rendered raw result =
      runAssignments (allAssignments chain self rendered raw prefixes) result := by
  induction prefixes generalizing result with
  | nil => rfl
  | cons pfx rest ih =>
    simp only [get_prefixed_properties, assignStripped_eq_run, ih,
      allAssignments, prefixAssignments, runAssignments_append, exbind_assoc]

/-- C2 (amended): `_get_prefixed_properties` performs no duplicate
detection, so a stripped-key collision between two different prefixes
never fails with DuplicateKey: over every scope, every prefix list and
every raw/rendered partition, whenever the call returns a bundle (it may
still fail for reasons unrelated to the collision, such as a failed
interpolation of one of the values), each stripped key holds the value
fetched for its last-processed assignment — so on a collision the
later-processed prefix's value has silently overwritten the earlier one —
and a key never assigned keeps its prior binding.  Prefix processing
order is the Python dict iteration order, modeled as the argument
order. -/
theorem c2_last_assignment_wins (chain : List Frame) (self : Scope)
    (prefixes rendered raw : List String)
    (result result' : List (String × Option Value)) (k : String)
    (hok : get_prefixed_properties chain self prefixes rendered raw result =
      Except.ok result') :
    (∀ fv, lastFetch (allAssignments chain self rendered raw prefixes) k =
        some fv →
      ∃ v, fv = Except.ok v ∧ dLookup result' k = some v) ∧
    (lastFetch (allAssignments chain self rendered raw prefixes) k = none →
      dLookup result' k = dLookup result k) := by
  rw [get_prefixed_properties_eq_run] at hok
  exact runAssignments_lookup _ k result result' hok

/-- C2 (witness for the amended theorem): the colliding call of the
counterexample — prefixes `a` and `b` both yield stripped key `k`; the
last assignment of `k` is prefix `b`'s fetch of `"2"`, and the returned
bundle holds exactly that value. -/
theorem c2_witness :
    (get_prefixed_properties []
        (Scope.node false [("a_k", Value.str "1"), ("b_k", Value.str "2")] [])
        ["a", "b"] [] ["a_k", "b_k"] [] =
      Except.ok [("k", some (Value.str "2"))]) ∧
    ∃ v, (Except.ok (some (Value.str "2")) : Except Err (Option Value)) =
        Except.ok v ∧
      dLookup [("k", some (Value.str "2"))] "k" = some v := by
  refine ⟨rfl, ?_⟩
  have h := c2_last_assignment_wins []
    (Scope.node false [("a_k", Value.str "1"), ("b_k", Value.str "2")] [])
    ["a", "b"] [] ["a_k", "b_k"] [] [("k", some (Value.str "2"))] "k" rfl
  exact h.1 (Except.ok (some (Value.str "2"))) rfl

/-- Existing parent links survive any sequence of construction-stack
operations: creating scopes only appends to `parents`, entering and
exiting only move `top`. -/
theorem applyOps_parents_stable (ops : List BOp) (s : BuildState) (i : Nat)
    (hi : i < s.parents.length) :
    (applyOps s ops).1.parents[i]? = s.parents[i]? ∧
    s.parents.length ≤ (applyOps s ops).1.parents.length := by
  induction ops generalizing s with
  | nil => exact ⟨rfl, le_refl _⟩
  | cons op ops ih =>
    cases op with
    | newS =>
      have h1 : applyOps s (BOp.newS :: ops) = applyOps (newScope s).1 ops := rfl
      rw [h1]
      have hlen : s.parents.length ≤ (newScope s).1.parents.length := by
        simp [newScope]
      have hi' : i < (newScope s).1.parents.length := lt_of_lt_of_le hi hlen
      obtain ⟨hg, hl⟩ := ih (newScope s).1 hi'
      refine ⟨?_, le_trans hlen hl⟩
      rw [hg]
      show (s.parents ++ [s.top])[i]? = s.parents[i]?
      exact List.getElem?_append_left hi
    | enterS n =>
      by_cases h : s.top = some n
      · simp [applyOps, applyOp, enterScope, h]
      · have h1 : applyOps s (BOp.enterS n :: ops) =
            applyOps ⟨some n, s.parents⟩ ops := by
          simp [applyOps, applyOp, enterScope, h]
        rw [h1]
        exact ih ⟨some n, s.parents⟩ hi
    | exitS n =>
      have h1 : applyOps s (BOp.exitS n :: ops) = applyOps (exitScope s n) ops := rfl
      rw [h1]
      exact ih (exitScope s n) hi

/-- C3: in every well-formed ambient state, `with Scope(): body` — for any
sequence of stack operations the body performs and whether or not the body
fails — succeeds and restores the top that was current immediately before
the scope was constructed and pushed (`__exit__` reinstates the recorded
parent); and entering the scope that is already the current top fails with
`IllegalReentry` (`assert Scope._top != self`). -/
theorem c3_stack_restore :
    (∀ (s0 : BuildState) (body : List BOp), topOk s0 →
      ∃ s1 berr, withScope s0 body = Except.ok (s1, berr) ∧ s1.top = s0.top) ∧
    (∀ (s : BuildState) (n : Nat), s.top = some n →
      enterScope s n = Except.error Err.illegalReentry) := by
  constructor
  · intro s0 body htop
    have hne : ¬ (s0.top = some s0.parents.length) := by
      intro h
      exact absurd (htop _ h) (lt_irrefl _)
    have henter : enterScope ⟨s0.top, s0.parents ++ [s0.top]⟩ s0.parents.length =
        Except.ok ⟨some s0.parents.length, s0.parents ++ [s0.top]⟩ := by
      simp [enterScope, hne]
    have hw : withScope s0 body =
        Except.ok
          (exitScope
            (applyOps ⟨some s0.parents.length, s0.parents ++ [s0.top]⟩ body).1
            s0.parents.length,
           (applyOps ⟨some s0.parents.length, s0.parents ++ [s0.top]⟩ body).2) := by
      simp only [withScope, newScope]
      rw [henter]
    refine ⟨_, _, hw, ?_⟩
    have hstable := (applyOps_parents_stable body
      ⟨some s0.parents.length, s0.parents ++ [s0.top]⟩ s0.parents.length
      (by simp)).1
    have hget : (applyOps ⟨some s0.parents.length, s0.parents ++ [s0.top]⟩
        body).1.parents[s0.parents.length]? = some s0.top := by
      rw [hstable]
      show (s0.parents ++ [s0.top])[s0.parents.length]? = some s0.top
      simp
    show ((applyOps _ body).1.parents[s0.parents.length]?).join = s0.top
    rw [hget]
    rfl
  · intro s n h
    simp [enterScope, h]

/-- C3 (witness): from the empty ambient state, a `with` block whose body
constructs another scope restores the empty top; entering the scope that
is already the top fails. -/
theorem c3_witness :
    (∃ s1 berr, withScope ⟨none, []⟩ [BOp.newS] = Except.ok (s1, berr) ∧
      s1.top = (⟨none, []⟩ : BuildState).top) ∧
    enterScope ⟨some 0, [none]⟩ 0 = Except.error Err.illegalReentry :=
  ⟨c3_stack_restore.1 ⟨none, []⟩ [BOp.newS] (fun m h => by simp at h),
   c3_stack_restore.2 ⟨some 0, [none]⟩ 0 rfl⟩

-- ### Path-invariance machinery for the private-visibility claim

theorem updChildren_getElem (g : Scope → Scope) (k j : Nat) (cs : List Scope) :
    (updChildren g k cs)[j]? = if j = k then (cs[k]?).map g else cs[j]? := by
  induction cs generalizing k j with
  | nil => cases k <;> simp [updChildren]
  | cons c cs ih =>
    cases k with
    | zero => cases j <;> simp [updChildren]
    | succ k' =>
      cases j with
      | zero => simp [updChildren]
      | succ j' => simpa [updChildren] using ih k' j'

theorem updChildren_map_view (g : Scope → Scope) (k : Nat) (cs : List Scope)
    (hg : ∀ c, ((g c).priv, (g c).props) = (c.priv, c.props)) :
    (updChildren g k cs).map (fun c => (c.priv, c.props)) =
      cs.map (fun c => (c.priv, c.props)) := by
  induction cs generalizing k with
  | nil => cases k <;> rfl
  | cons c cs ih =>
    cases k with
    | zero => simp [updChildren, hg c]
    | succ k' => simp [updChildren, ih k']

theorem mergeChildren_congr (name : String) (cs cs' : List Scope)
    (h : cs.map (fun c => (c.priv, c.props)) = cs'.map (fun c => (c.priv, c.props))) :
    ∀ acc, mergeChildren name cs acc = mergeChildren name cs' acc := by
  induction cs generalizing cs' with
  | nil =>
    cases cs' with
    | nil => intro acc; rfl
    | cons c' cs2 => simp at h
  | cons c cs ih =>
    cases cs' with
    | nil => simp at h
    | cons c' cs2 =>
      simp only [List.map_cons, List.cons.injEq, Prod.mk.injEq] at h
      obtain ⟨⟨hpriv, hprops⟩, htl⟩ := h
      intro acc
      simp only [mergeChildren, hpriv, hprops, ih cs2 htl]

/-- `Scope.get` reads nothing of the queried node beyond `nodeView`. -/
theorem get_congr_view (chain : List Frame) (s s' : Scope) (name : String)
    (d : Option Value) (h : nodeView s = nodeView s') :
    get chain s name d = get chain s' name d := by
  cases s with
  | node pr ps cs =>
    cases s' with
    | node pr' ps' cs' =>
      simp only [nodeView, Prod.mk.injEq] at h
      obtain ⟨hpr, hps, hcs⟩ := h
      subst hpr
      subst hps
      have hm : ∀ acc, mergeChildren name cs acc = mergeChildren name cs' acc :=
        mergeChildren_congr name cs cs' hcs
      simp only [get, getOpt, Scope.props, Scope.priv, Scope.children, hm]

/-- Replacing properties strictly below a node keeps the node's privacy
flag and properties. -/
theorem setPropsAt_keeps_view (r : List Nat) (ps2 : Props) (c : Scope)
    (h : r ≠ []) :
    ((setPropsAt r ps2 c).priv, (setPropsAt r ps2 c).props) = (c.priv, c.props) := by
  cases r with
  | nil => exact absurd rfl h
  | cons a r2 =>
    cases c with
    | node cpr cps ccs => rfl

/-- The ancestor frames along a path are unchanged by a property
replacement anywhere except at a strict ancestor of that path. -/
theorem framesTo_setPropsAt (q : List Nat) :
    ∀ (t : Scope) (r : List Nat) (ps2 : Props),
      ¬ (r <+: q ∧ r ≠ q) →
      framesTo (setPropsAt r ps2 t) q = framesTo t q := by
  induction q with
  | nil => intro t r ps2 _; rfl
  | cons j q' ih =>
    intro t r ps2 h
    cases r with
    | nil => exact absurd ⟨List.nil_prefix, by simp⟩ h
    | cons k r' =>
      cases t with
      | node pr ps cs =>
        show framesTo
          (Scope.node pr ps (updChildren (setPropsAt r' ps2) k cs)) (j :: q') =
          framesTo (Scope.node pr ps cs) (j :: q')
        simp only [framesTo, Scope.children, Scope.priv, Scope.props]
        rw [updChildren_getElem]
        by_cases hk : j = k
        · subst hk
          rw [if_pos rfl]
          cases hc : cs[j]? with
          | none => simp
          | some c =>
            simp only [Option.map_some']
            rw [ih c r' ps2 ?_]
            intro hcon
            apply h
            refine ⟨List.cons_prefix_cons.mpr ⟨rfl, hcon.1⟩, ?_⟩
            intro he
            exact hcon.2 (List.cons.inj he).2
        · simp only [hk, if_neg, ite_false]

/-- The `nodeView` of the node at a path is unchanged by a property
replacement anywhere except at that node or at one of its children. -/
theorem atPath_view_setPropsAt (q : List Nat) :
    ∀ (t : Scope) (r : List Nat) (ps2 : Props),
      r ≠ q → (∀ m, r ≠ q ++ [m]) →
      (atPath (setPropsAt r ps2 t) q).map nodeView = (atPath t q).map nodeView := by
  induction q with
  | nil =>
    intro t r ps2 h1 h2
    cases r with
    | nil => exact absurd rfl h1
    | cons k r' =>
      cases t with
      | node pr ps cs =>
        have hr' : r' ≠ [] := by
          intro he
          exact h2 k (by rw [he]; rfl)
        show (some (Scope.node pr ps (updChildren (setPropsAt r' ps2) k cs))).map
            nodeView = (some (Scope.node pr ps cs)).map nodeView
        simp only [Option.map_some', nodeView]
        refine congrArg (fun l => some (pr, ps, l)) ?_
        exact updChildren_map_view _ k cs
          (fun c => setPropsAt_keeps_view r' ps2 c hr')
  | cons j q' ih =>
    intro t r ps2 h1 h2
    cases t with
    | node pr ps cs =>
      cases r with
      | nil =>
        show (atPath (Scope.node pr ps2 cs) (j :: q')).map nodeView = _
        simp only [atPath, Scope.children]
      | cons k r' =>
        show (atPath
          (Scope.node pr ps (updChildren (setPropsAt r' ps2) k cs)) (j :: q')).map
            nodeView = _
        simp only [atPath, Scope.children]
        rw [updChildren_getElem]
        by_cases hk : j = k
        · subst hk
          rw [if_pos rfl]
          cases hc : cs[j]? with
          | none => simp
          | some c =>
            simp only [Option.map_some']
            exact ih c r' ps2 (fun he => h1 (by rw [he]))
              (fun m he => h2 m (by rw [he, List.cons_append]))
        · simp only [hk, if_neg, ite_false]

/-- A `get` performed at a path is unchanged by a property replacement at
any node that is not a strict ancestor of the path, not the node at the
path, and not one of its children. -/
theorem getAtPath_invariant (t : Scope) (r q : List Nat) (ps2 : Props)
    (name : String) (d : Option Value)
    (h1 : ¬ (r <+: q ∧ r ≠ q)) (h2 : r ≠ q) (h3 : ∀ m, r ≠ q ++ [m]) :
    getAtPath (setPropsAt r ps2 t) q name d = getAtPath t q name d := by
  have hfr := framesTo_setPropsAt q t r ps2 h1
  have hvw := atPath_view_setPropsAt q t r ps2 h2 h3
  simp only [getAtPath, hfr]
  cases ha : atPath t q with
  | none =>
    rw [ha] at hvw
    have hnone : atPath (setPropsAt r ps2 t) q = none := by
      cases hb : atPath (setPropsAt r ps2 t) q with
      | none => rfl
      | some s => rw [hb] at hvw; simp at hvw
    rw [hnone]
  | some s =>
    rw [ha] at hvw
    cases hb : atPath (setPropsAt r ps2 t) q with
    | none => rw [hb] at hvw; simp at hvw
    | some s' =>
      rw [hb] at hvw
      simp only [Option.map_some'] at hvw
      exact get_congr_view (framesTo t q) s' s name d (Option.some.inj hvw)

/-- C5: a `Private` child C of a parent scope S contributes its List/Map
properties into S's own resolution of the same name (first two parts: a
list contribution ends up merged in front of S's local entries, a map
contribution is merged underneath S's local entries), yet C's properties
are never observed anywhere else: a `get` performed by a non-private
sibling of C, or by S's own parent, returns the same result whatever
C's properties are replaced with (last two parts). -/
theorem c5_private_visibility :
    (∀ (chain : List Frame) (sprops cprops : Props) (ccs : List Scope)
      (name : String) (d : Option Value) (xs zs : List Value),
      dLookup sprops name = some (Value.vlist xs) →
      dLookup cprops name = some (Value.vlist zs) →
      getUp name chain = Except.ok none →
      get chain (Scope.node false sprops [Scope.node true cprops ccs]) name d =
        Except.ok (some (Value.vlist (zs ++ xs)))) ∧
    (∀ (chain : List Frame) (sprops cprops : Props) (ccs : List Scope)
      (name : String) (d : Option Value) (sm cm : List (String × Value)),
      dLookup sprops name = some (Value.vdict sm) →
      dLookup cprops name = some (Value.vdict cm) →
      getUp name chain = Except.ok none →
      get chain (Scope.node false sprops [Scope.node true cprops ccs]) name d =
        Except.ok (some (Value.vdict (dUpdate cm sm)))) ∧
    (∀ (t : Scope) (p : List Nat) (i j : Nat) (sN cN tN : Scope)
      (name : String) (d : Option Value) (ps2 : Props),
      atPath t p = some sN → sN.children[i]? = some cN → cN.priv = true →
      j ≠ i → sN.children[j]? = some tN → tN.priv = false →
      getAtPath (setPropsAt (p ++ [i]) ps2 t) (p ++ [j]) name d =
        getAtPath t (p ++ [j]) name d) ∧
    (∀ (t : Scope) (pp : List Nat) (m i : Nat) (sN cN : Scope)
      (name : String) (d : Option Value) (ps2 : Props),
      atPath t (pp ++ [m]) = some sN → sN.children[i]? = some cN →
      cN.priv = true →
      getAtPath (setPropsAt (pp ++ [m] ++ [i]) ps2 t) pp name d =
        getAtPath t pp name d) := by
  refine ⟨?_, ?_, ?_, ?_⟩
  · intro chain sprops cprops ccs name d xs zs hs hcl hup
    have hopt : getOpt chain
        (Scope.node false sprops [Scope.node true cprops ccs]) name =
        Except.ok (some (Value.vlist (zs ++ xs))) := by
      rw [getOpt_merge chain sprops _ name (by rw [hs]; rfl), hup, exbind_ok, hs]
      show (mergeInto (some (Value.vlist xs)) none >>= _) = _
      simp only [mergeInto, exbind_ok, mergeChildren, Scope.priv, Scope.props,
        if_pos, hcl]
    simp [get, hopt]
  · intro chain sprops cprops ccs name d sm cm hs hcl hup
    have hopt : getOpt chain
        (Scope.node false sprops [Scope.node true cprops ccs]) name =
        Except.ok (some (Value.vdict (dUpdate cm sm))) := by
      rw [getOpt_merge chain sprops _ name (by rw [hs]; rfl), hup, exbind_ok, hs]
      show (mergeInto (some (Value.vdict sm)) none >>= _) = _
      simp only [mergeInto, exbind_ok, mergeChildren, Scope.priv, Scope.props,
        if_pos, hcl]
    simp [get, hopt]
  · intro t p i j sN cN tN name d ps2 _ _ _ hij _ _
    apply getAtPath_invariant
    · intro hcon
      obtain ⟨s, hs⟩ := hcon.1
      rw [List.append_assoc] at hs
      have h2 := List.append_cancel_left hs
      exact hij ((List.cons.inj h2).1).symm
    · intro he
      have h2 := List.append_cancel_left he
      exact hij ((List.cons.inj h2).1).symm
    · intro m he
      have := congrArg List.length he
      simp [List.length_append] at this
  · intro t pp m i sN cN name d ps2 _ _ _
    apply getAtPath_invariant
    · intro hcon
      have := hcon.1.length_le
      simp [List.length_append] at this
    · intro he
      have := congrArg List.length he
      simp [List.length_append] at this
    · intro m2 he
      have := congrArg List.length he
      simp [List.length_append] at this

/-- C5 (witness): a concrete tree — grandparent G over parent S over a
private child C (`t = [[C][T]]` at S); C's list property is merged into
S's `get`; the sibling T's `get` and G's `get` are unchanged when C's
properties are replaced by the empty dict. -/
theorem c5_witness :
    get [⟨false, []⟩]
        (Scope.node false [("t", Value.vlist [Value.str "L"])]
          [Scope.node true [("t", Value.vlist [Value.str "P"])] []]) "t" none =
      Except.ok (some (Value.vlist [Value.str "P", Value.str "L"])) ∧
    get [⟨false, []⟩]
        (Scope.node false [("m", Value.vdict [("a", Value.int 1)])]
          [Scope.node true [("m", Value.vdict [("b", Value.int 2)])] []]) "m" none =
      Except.ok (some (Value.vdict
        (dUpdate [("b", Value.int 2)] [("a", Value.int 1)]))) ∧
    getAtPath
        (setPropsAt [0, 0] []
          (Scope.node false [("g", Value.str "G")]
            [Scope.node false [("s", Value.str "S")]
              [Scope.node true [("c", Value.str "C")] [],
               Scope.node false [("u", Value.str "T")] []]]))
        [0, 1] "c" none =
      getAtPath
        (Scope.node false [("g", Value.str "G")]
          [Scope.node false [("s", Value.str "S")]
            [Scope.node true [("c", Value.str "C")] [],
             Scope.node false [("u", Value.str "T")] []]])
        [0, 1] "c" none ∧
    getAtPath
        (setPropsAt [0, 0] []
          (Scope.node false [("g", Value.str "G")]
            [Scope.node false [("s", Value.str "S")]
              [Scope.node true [("c", Value.str "C")] [],
               Scope.node false [("u", Value.str "T")] []]]))
        [] "c" none =
      getAtPath
        (Scope.node false [("g", Value.str "G")]
          [Scope.node false [("s", Value.str "S")]
            [Scope.node true [("c", Value.str "C")] [],
             Scope.node false [("u", Value.str "T")] []]])
        [] "c" none := by
  refine ⟨?_, ?_, ?_, ?_⟩
  · exact c5_private_visibility.1 [⟨false, []⟩] _ _ [] "t" none
      [Value.str "L"] [Value.str "P"] rfl rfl rfl
  · exact c5_private_visibility.2.1 [⟨false, []⟩] _ _ [] "m" none
      [("a", Value.int 1)] [("b", Value.int 2)] rfl rfl rfl
  · exact c5_private_visibility.2.2.1 _ [0] 0 1
      (Scope.node false [("s", Value.str "S")]
        [Scope.node true [("c", Value.str "C")] [],
         Scope.node false [("u", Value.str "T")] []])
      (Scope.node true [("c", Value.str "C")] [])
      (Scope.node false [("u", Value.str "T")] []) "c" none []
      rfl rfl rfl (by decide) rfl rfl
  · exact c5_private_visibility.2.2.2 _ [] 0 0
      (Scope.node false [("s", Value.str "S")]
        [Scope.node true [("c", Value.str "C")] [],
         Scope.node false [("u", Value.str "T")] []])
      (Scope.node true [("c", Value.str "C")] []) "c" none []
      rfl rfl rfl

-- ### Heap-model lemmas for copy isolation

theorem wfHV_mono {m n : Nat} (hmn : m ≤ n) : ∀ {v : HV}, wfHV m v → wfHV n v
  | HV.scal _, h => h
  | HV.href _, h => lt_of_lt_of_le h hmn

theorem wfProps_mono {m n : Nat} (hmn : m ≤ n) {ps : HProps}
    (h : wfProps m ps) : wfProps n ps :=
  fun p hp => wfHV_mono hmn (h p hp)

theorem concrHV_agree {n : Nat} {h h2 : Heap}
    (hag : ∀ i, i < n → h2[i]? = h[i]?) {v : HV} (hwf : wfHV n v) :
    concrHV h2 v = concrHV h v := by
  cases v with
  | scal w => rfl
  | href i =>
    simp only [concrHV]
    rw [hag i hwf]

theorem concrProps_agree {n : Nat} {h h2 : Heap}
    (hag : ∀ i, i < n → h2[i]? = h[i]?) {ps : HProps} (hwf : wfProps n ps) :
    concrProps h2 ps = concrProps h ps := by
  unfold concrProps
  apply List.map_congr_left
  intro p hp
  rw [concrHV_agree hag (hwf p hp)]

theorem concrChain_agree {n : Nat} {h h2 : Heap}
    (hag : ∀ i, i < n → h2[i]? = h[i]?) {chain : List HFrame}
    (hwf : wfChain n chain) : concrChain h2 chain = concrChain h chain := by
  unfold concrChain
  apply List.map_congr_left
  intro f hf
  rw [concrProps_agree hag (hwf f hf)]

theorem concrNode_agree {n : Nat} {h h2 : Heap}
    (hag : ∀ i, i < n → h2[i]? = h[i]?) {t : HScope} (hwf : wfNode n t) :
    concrNode h2 t = concrNode h t := by
  cases t with
  | node pr ps cs =>
    obtain ⟨hps, hcs⟩ := hwf
    unfold concrNode
    simp only [HScope.priv, HScope.props, HScope.children] at *
    rw [concrProps_agree hag hps]
    refine congrArg (Scope.node pr (concrProps h ps)) ?_
    apply List.map_congr_left
    intro c hc
    rw [concrProps_agree hag (hcs c hc)]

theorem dLookup_concrProps (h : Heap) (ps : HProps) (name : String) :
    dLookup (concrProps h ps) name = (dLookup ps name).map (concrHV h) := by
  induction ps with
  | nil => rfl
  | cons p ps ih =>
    show dLookup ((p.1, concrHV h p.2) :: concrProps h ps) name = _
    rw [dLookup_cons, dLookup_cons]
    by_cases hk : p.1 = name
    · simp [hk]
    · simp only [hk, if_neg, ite_false]
      exact ih

theorem dLookup_wf {n : Nat} {ps : HProps} {name : String} {v : HV}
    (hwf : wfProps n ps) (hl : dLookup ps name = some v) : wfHV n v := by
  unfold dLookup at hl
  cases hf : ps.find? (fun p => p.1 = name) with
  | none => rw [hf] at hl; cases hl
  | some p =>
    rw [hf] at hl
    cases hl
    exact hwf p (List.mem_of_find?_eq_some hf)

theorem isScalar_concr {h : Heap} {v : HV} (hwf : wfHV h.length v) :
    isScalarV (concrHV h v) = isScalarHV (some v) := by
  cases v with
  | scal w => exact hwf.trans (rfl : isScalarHV (some (HV.scal w)) = true).symm
  | href i =>
    obtain ⟨o, ho⟩ : ∃ o, h[i]? = some o := ⟨_, List.getElem?_eq_getElem hwf⟩
    cases o <;> simp [concrHV, ho, isScalarV, isScalarHV]

theorem isScalarOpt_concr {h : Heap} {ov : Option HV}
    (hwf : ∀ v, ov = some v → wfHV h.length v) :
    isScalarOpt (ov.map (concrHV h)) = isScalarHV ov := by
  cases ov with
  | none => rfl
  | some v => exact isScalar_concr (hwf v rfl)

theorem hCopyOut_rel (h : Heap) (v : Option HV)
    (hwf : ∀ w, v = some w → wfHV h.length w) :
    ∃ h2 v2, hCopyOut h v = Except.ok (h2, v2) ∧
      v2.map (concrHV h2) = v.map (concrHV h) ∧ heapStep h h2 v2 ∧
      (∀ w, v2 = some w → wfHV h2.length w) := by
  cases v with
  | none =>
    exact ⟨h, none, rfl, rfl,
      ⟨le_refl _, fun i _ => rfl, fun j hj => by cases hj⟩,
      fun w hw => by cases hw⟩
  | some hv =>
    cases hv with
    | scal w =>
      refine ⟨h, some (HV.scal w), rfl, rfl,
        ⟨le_refl _, fun i _ => rfl, fun j hj => by cases hj⟩, ?_⟩
      intro w2 hw2
      cases hw2
      exact hwf (HV.scal w) rfl
    | href k =>
      have hk : k < h.length := hwf (HV.href k) rfl
      obtain ⟨o, ho⟩ : ∃ o, h[k]? = some o := ⟨_, List.getElem?_eq_getElem hk⟩
      refine ⟨h ++ [o], some (HV.href h.length), ?_, ?_, ?_, ?_⟩
      · simp [hCopyOut, hlookupObj, ho, alloc, exbind_ok]
      · simp only [Option.map_some', concrHV, List.getElem?_concat_length, ho]
      · refine ⟨by simp, fun i hi => List.getElem?_append_left hi, ?_⟩
        intro j hj
        cases hj
        simp
      · intro w hw
        cases hw
        show h.length < (h ++ [o]).length
        simp

theorem mergeInto_scalar_sv {w : Value} (hw : isScalarV w = true)
    (acc : Option Value) : mergeInto acc (some w) = Except.ok (some w) := by
  cases w with
  | vlist xs => simp [isScalarV] at hw
  | vdict m => simp [isScalarV] at hw
  | str s => rfl
  | int k => rfl
  | bool b => rfl
  | deferredTmpl f => rfl

theorem mergeInto_scalar_acc {w : Value} (hw : isScalarV w = true)
    (sv : Value) (hsv : isScalarV sv = false) :
    mergeInto (some w) (some sv) = Except.error Err.typeMismatch := by
  cases sv with
  | vlist xs =>
    cases w with
    | vlist _ => simp [isScalarV] at hw
    | vdict _ => simp [isScalarV] at hw
    | str _ => rfl
    | int _ => rfl
    | bool _ => rfl
    | deferredTmpl _ => rfl
  | vdict m =>
    cases w with
    | vlist _ => simp [isScalarV] at hw
    | vdict _ => simp [isScalarV] at hw
    | str _ => rfl
    | int _ => rfl
    | bool _ => rfl
    | deferredTmpl _ => rfl
  | str _ => simp [isScalarV] at hsv
  | int _ => simp [isScalarV] at hsv
  | bool _ => simp [isScalarV] at hsv
  | deferredTmpl _ => simp [isScalarV] at hsv

/-- The merge step corresponds between the heap model and the immutable
model: errors agree, and on success the value read back through the new
heap is the immutable merge, pre-existing objects below `n` (the base of
the enclosing call) are untouched since the mutated object `sv` is fresh
(`n ≤ j`). -/
theorem hMergeInto_rel (h : Heap) (acc sv : Option HV) (n : Nat)
    (haccwf : ∀ v, acc = some v → wfHV h.length v)
    (hsvwf : ∀ v, sv = some v → wfHV h.length v)
    (hsvfresh : ∀ j, sv = some (HV.href j) → n ≤ j) :
    (∃ e, hMergeInto h acc sv = Except.error e ∧
      mergeInto (acc.map (concrHV h)) (sv.map (concrHV h)) = Except.error e) ∨
    (∃ h2 v2, hMergeInto h acc sv = Except.ok (h2, v2) ∧
      mergeInto (acc.map (concrHV h)) (sv.map (concrHV h)) =
        Except.ok (v2.map (concrHV h2)) ∧
      h2.length = h.length ∧ (∀ i, i < n → h2[i]? = h[i]?) ∧
      (∀ v, v2 = some v → wfHV h2.length v)) := by
  cases sv with
  | none =>
    right
    exact ⟨h, acc, rfl, rfl, rfl, fun i _ => rfl, haccwf⟩
  | some sh =>
    cases sh with
    | scal w =>
      right
      have hwsc : isScalarV w = true := hsvwf (HV.scal w) rfl
      refine ⟨h, some (HV.scal w), rfl, ?_, rfl, fun i _ => rfl, ?_⟩
      · simp only [Option.map_some', concrHV]
        exact mergeInto_scalar_sv hwsc _
      · intro v hv
        cases hv
        exact hsvwf (HV.scal w) rfl
    | href j =>
      have hj : j < h.length := hsvwf (HV.href j) rfl
      have hjn : n ≤ j := hsvfresh j rfl
      obtain ⟨o, ho⟩ : ∃ o, h[j]? = some o := ⟨_, List.getElem?_eq_getElem hj⟩
      cases o with
      | olist xs =>
        cases acc with
        | none =>
          right
          refine ⟨h, some (HV.href j), ?_, ?_, rfl, fun i _ => rfl, ?_⟩
          · simp [hMergeInto, hlookupObj, ho, exbind_ok]
          · simp [Option.map_some', concrHV, ho, mergeInto]
          · intro v hv
            cases hv
            exact hj
        | some ah =>
          cases ah with
          | scal w =>
            left
            have hwsc : isScalarV w = true := haccwf (HV.scal w) rfl
            refine ⟨Err.typeMismatch, ?_, ?_⟩
            · simp [hMergeInto, hlookupObj, ho, exbind_ok]
            · simp only [Option.map_some', concrHV, ho]
              exact mergeInto_scalar_acc hwsc _ rfl
          | href k =>
            have hk : k < h.length := haccwf (HV.href k) rfl
            obtain ⟨oa, hoa⟩ : ∃ oa, h[k]? = some oa :=
              ⟨_, List.getElem?_eq_getElem hk⟩
            cases oa with
            | olist ys =>
              right
              refine ⟨h.set j (Obj.olist (xs ++ ys)), some (HV.href j),
                ?_, ?_, ?_, ?_, ?_⟩
              · simp [hMergeInto, hlookupObj, ho, hoa, exbind_ok]
              · have hset : (h.set j (Obj.olist (xs ++ ys)))[j]? =
                    some (Obj.olist (xs ++ ys)) :=
                  List.getElem?_set_eq_of_lt _ hj
                simp [Option.map_some', concrHV, ho, hoa, hset, mergeInto]
              · exact List.length_set h j _
              · intro i hi
                exact List.getElem?_set_ne (by omega)
              · intro v hv
                cases hv
                show j < (h.set j (Obj.olist (xs ++ ys))).length
                rw [List.length_set]
                exact hj
            | odict mm =>
              left
              refine ⟨Err.typeMismatch, ?_, ?_⟩
              · simp [hMergeInto, hlookupObj, ho, hoa, exbind_ok]
              · simp [Option.map_some', concrHV, ho, hoa, mergeInto]
      | odict m =>
        cases acc with
        | none =>
          right
          refine ⟨h, some (HV.href j), ?_, ?_, rfl, fun i _ => rfl, ?_⟩
          · simp [hMergeInto, hlookupObj, ho, exbind_ok]
          · simp [Option.map_some', concrHV, ho, mergeInto]
          · intro v hv
            cases hv
            exact hj
        | some ah =>
          cases ah with
          | scal w =>
            left
            have hwsc : isScalarV w = true := haccwf (HV.scal w) rfl
            refine ⟨Err.typeMismatch, ?_, ?_⟩
            · simp [hMergeInto, hlookupObj, ho, exbind_ok]
            · simp only [Option.map_some', concrHV, ho]
              exact mergeInto_scalar_acc hwsc _ rfl
          | href k =>
            have hk : k < h.length := haccwf (HV.href k) rfl
            obtain ⟨oa, hoa⟩ : ∃ oa, h[k]? = some oa :=
              ⟨_, List.getElem?_eq_getElem hk⟩
            cases oa with
            | odict mn =>
              right
              refine ⟨h.set j (Obj.odict (dUpdate m mn)), some (HV.href j),
                ?_, ?_, ?_, ?_, ?_⟩
              · simp [hMergeInto, hlookupObj, ho, hoa, exbind_ok]
              · have hset : (h.set j (Obj.odict (dUpdate m mn)))[j]? =
                    some (Obj.odict (dUpdate m mn)) :=
                  List.getElem?_set_eq_of_lt _ hj
                simp [Option.map_some', concrHV, ho, hoa, hset, mergeInto]
              · exact List.length_set h j _
              · intro i hi
                exact List.getElem?_set_ne (by omega)
              · intro v hv
                cases hv
                show j < (h.set j (Obj.odict (dUpdate m mn))).length
                rw [List.length_set]
                exact hj
            | olist ys =>
              left
              refine ⟨Err.typeMismatch, ?_, ?_⟩
              · simp [hMergeInto, hlookupObj, ho, hoa, exbind_ok]
              · simp [Option.map_some', concrHV, ho, hoa, mergeInto]

/-- The upward resolution corresponds between the heap and immutable
models: errors agree; on success the returned value, read back through
the final heap, is the immutable resolution, the heap only grows,
pre-existing objects are untouched, and a returned collection is a fresh
object. -/
theorem getUpH_rel (name : String) (chain : List HFrame) (h : Heap)
    (hwf : wfChain h.length chain) :
    (∃ e, getUpH name chain h = Except.error e ∧
      getUp name (concrChain h chain) = Except.error e) ∨
    (∃ h2 rv, getUpH name chain h = Except.ok (h2, rv) ∧
      getUp name (concrChain h chain) = Except.ok (rv.map (concrHV h2)) ∧
      heapStep h h2 rv ∧ (∀ v, rv = some v → wfHV h2.length v)) := by
  induction chain generalizing h with
  | nil =>
    right
    exact ⟨h, none, rfl, rfl,
      ⟨le_refl _, fun i _ => rfl, fun j hj => by cases hj⟩, fun v hv => by cases hv⟩
  | cons f rest ih =>
    have hwff : wfProps h.length f.props := hwf f (List.mem_cons_self f rest)
    have hwfr : wfChain h.length rest :=
      fun g hg => hwf g (List.mem_cons_of_mem f hg)
    have hv0wf : ∀ v, dLookup f.props name = some v → wfHV h.length v :=
      fun v hv => dLookup_wf hwff hv
    have hcc : concrChain h (f :: rest) =
        (⟨f.priv, concrProps h f.props⟩ : Frame) :: concrChain h rest := rfl
    have hlk : dLookup (concrProps h f.props) name =
        (dLookup f.props name).map (concrHV h) := dLookup_concrProps h f.props name
    have hsc : isScalarOpt ((dLookup f.props name).map (concrHV h)) =
        isScalarHV (dLookup f.props name) := isScalarOpt_concr hv0wf
    by_cases hscal : isScalarHV (dLookup f.props name) = true
    · right
      refine ⟨h, dLookup f.props name, ?_, ?_,
        ⟨le_refl _, fun i _ => rfl, ?_⟩, hv0wf⟩
      · simp [getUpH, hscal]
      · rw [hcc]
        simp [getUp, hlk, hsc, hscal]
      · intro j hj
        rw [hj] at hscal
        simp [isScalarHV] at hscal
    · by_cases hpriv : f.priv = true
      · obtain ⟨h3, v3, hco, hcv, hstep, hwf3⟩ :=
          hCopyOut_rel h (dLookup f.props name) hv0wf
        right
        refine ⟨h3, v3, ?_, ?_, hstep, hwf3⟩
        · simp only [getUpH, hscal, Bool.false_eq_true, if_neg, ite_false,
            hpriv, ite_true, exbind_ok]
          show (hMergeInto h (dLookup f.props name) none >>= fun mr =>
            hCopyOut mr.1 mr.2) = _
          simp only [hMergeInto, exbind_ok]
          exact hco
        · rw [hcc]
          simp only [getUp, Frame.props, Frame.priv, hlk, hsc, hscal,
            Bool.false_eq_true, if_neg, ite_false, hpriv, ite_true, exbind_ok]
          show mergeInto ((dLookup f.props name).map (concrHV h)) none = _
          simp only [mergeInto]
          rw [← hcv]
      · rcases ih h hwfr with ⟨e, hhe, hpe⟩ | ⟨h1, pv, hhok, hpok, hstep1, hwf1⟩
        · left
          refine ⟨e, ?_, ?_⟩
          · simp [getUpH, hscal, hpriv, hhe, exbind_error]
          · rw [hcc]
            simp [getUp, hlk, hsc, hscal, hpriv, hpe, exbind_error]
        · have hagree : (dLookup f.props name).map (concrHV h1) =
              (dLookup f.props name).map (concrHV h) := by
            cases hdl : dLookup f.props name with
            | none => rfl
            | some v =>
              simp [Option.map_some', concrHV_agree hstep1.2.1 (hv0wf v hdl)]
          have haccwf1 : ∀ v, dLookup f.props name = some v → wfHV h1.length v :=
            fun v hv => wfHV_mono hstep1.1 (hv0wf v hv)
          have hsvfresh1 : ∀ j, pv = some (HV.href j) → h.length ≤ j :=
            fun j hj => (hstep1.2.2 j hj).1
          rcases hMergeInto_rel h1 (dLookup f.props name) pv h.length
              haccwf1 hwf1 hsvfresh1 with
            ⟨e, hme, hmp⟩ | ⟨h2, v2, hmok, hmpok, hlen2, hag2, hwf2⟩
          · left
            refine ⟨e, ?_, ?_⟩
            · simp [getUpH, hscal, hpriv, hhok, exbind_ok, hme, exbind_error]
            · rw [hcc]
              simp only [getUp, Frame.props, Frame.priv, hlk, hsc, hscal,
                Bool.false_eq_true, if_neg, ite_false, hpriv, hpok, exbind_ok]
              rw [← hagree]
              exact hmp
          · obtain ⟨h3, v3, hco, hcv, hstep3, hwf3⟩ := hCopyOut_rel h2 v2 hwf2
            right
            refine ⟨h3, v3, ?_, ?_, ?_, hwf3⟩
            · simp [getUpH, hscal, hpriv, hhok, exbind_ok, hmok, hco]
            · rw [hcc]
              simp only [getUp, Frame.props, Frame.priv, hlk, hsc, hscal,
                Bool.false_eq_true, if_neg, ite_false, hpriv, hpok, exbind_ok]
              rw [← hagree, hmpok, ← hcv]
            · have hl12 : h.length ≤ h2.length := by
                rw [hlen2]
                exact hstep1.1
              refine ⟨le_trans hl12 hstep3.1, ?_, ?_⟩
              · intro i hi
                rw [hstep3.2.1 i (lt_of_lt_of_le hi hl12), hag2 i hi,
                  hstep1.2.1 i hi]
              · intro j hj
                obtain ⟨hj1, hj2⟩ := hstep3.2.2 j hj
                exact ⟨le_trans hl12 hj1, hj2⟩

/-- The private-children loop corresponds between the heap and immutable
models; the running value may still be a stored object (freshness is
re-established by the final copy in `getOptH`), but pre-existing objects
are untouched: every mutation hits a copy freshly allocated inside the
loop. -/
theorem mergeChildrenH_rel (name : String) (cs : List HScope) :
    ∀ (h : Heap) (acc : Option HV),
      (∀ c ∈ cs, wfProps h.length c.props) →
      (∀ v, acc = some v → wfHV h.length v) →
      (∃ e, mergeChildrenH name cs h acc = Except.error e ∧
        mergeChildren name
          (cs.map (fun c => Scope.node c.priv (concrProps h c.props) []))
          (acc.map (concrHV h)) = Except.error e) ∨
      (∃ h2 rv, mergeChildrenH name cs h acc = Except.ok (h2, rv) ∧
        mergeChildren name
          (cs.map (fun c => Scope.node c.priv (concrProps h c.props) []))
          (acc.map (concrHV h)) = Except.ok (rv.map (concrHV h2)) ∧
        h.length ≤ h2.length ∧ (∀ i, i < h.length → h2[i]? = h[i]?) ∧
        (∀ v, rv = some v → wfHV h2.length v)) := by
  induction cs with
  | nil =>
    intro h acc _ haccwf
    right
    exact ⟨h, acc, rfl, rfl, le_refl _, fun i _ => rfl, haccwf⟩
  | cons c cs ih =>
    intro h acc hwfc haccwf
    have hwfc0 : wfProps h.length c.props := hwfc c (List.mem_cons_self c cs)
    have hwfcs : ∀ c2 ∈ cs, wfProps h.length c2.props :=
      fun c2 hc => hwfc c2 (List.mem_cons_of_mem c hc)
    by_cases hpriv : c.priv = true
    · have hv0wf : ∀ v, dLookup c.props name = some v → wfHV h.length v :=
        fun v hv => dLookup_wf hwfc0 hv
      obtain ⟨ha, sv, hco, hcv, hstepa, hwfa⟩ :=
        hCopyOut_rel h (dLookup c.props name) hv0wf
      have haccwfa : ∀ v, acc = some v → wfHV ha.length v :=
        fun v hv => wfHV_mono hstepa.1 (haccwf v hv)
      have hsvf : ∀ j, sv = some (HV.href j) → h.length ≤ j :=
        fun j hj => (hstepa.2.2 j hj).1
      have hacc_ag : acc.map (concrHV ha) = acc.map (concrHV h) := by
        cases hacv : acc with
        | none => rfl
        | some av =>
          simp [Option.map_some', concrHV_agree hstepa.2.1 (haccwf av hacv)]
      rcases hMergeInto_rel ha acc sv h.length haccwfa hwfa hsvf with
        ⟨e, hme, hmp⟩ | ⟨hb, vb, hmok, hmpok, hlenb, hagb, hwfb⟩
      · left
        refine ⟨e, ?_, ?_⟩
        · simp [mergeChildrenH, hpriv, hco, exbind_ok, hme, exbind_error]
        · simp only [List.map_cons, mergeChildren, Scope.priv, Scope.props,
            hpriv, ite_true]
          rw [dLookup_concrProps, ← hacc_ag, ← hcv, hmp, exbind_error]
      · have hagbh : ∀ i, i < h.length → hb[i]? = h[i]? := by
          intro i hi
          rw [hagb i hi, hstepa.2.1 i hi]
        have hlenbh : h.length ≤ hb.length := by
          rw [hlenb]
          exact hstepa.1
        have hwfcsb : ∀ c2 ∈ cs, wfProps hb.length c2.props :=
          fun c2 hc => wfProps_mono hlenbh (hwfcs c2 hc)
        have hmap_ag :
            cs.map (fun c2 => Scope.node c2.priv (concrProps hb c2.props) []) =
            cs.map (fun c2 => Scope.node c2.priv (concrProps h c2.props) []) := by
          apply List.map_congr_left
          intro c2 hc
          rw [concrProps_agree hagbh (hwfcs c2 hc)]
        rcases ih hb vb hwfcsb hwfb with
          ⟨e, hre, hrp⟩ | ⟨h2, rv, hrok, hrpok, hlen2, hag2, hwf2⟩
        · left
          refine ⟨e, ?_, ?_⟩
          · simp [mergeChildrenH, hpriv, hco, exbind_ok, hmok, hre]
          · simp only [List.map_cons, mergeChildren, Scope.priv, Scope.props,
              hpriv, ite_true]
            rw [dLookup_concrProps, ← hacc_ag, ← hcv, hmpok, exbind_ok, ← hmap_ag]
            exact hrp
        · right
          refine ⟨h2, rv, ?_, ?_, le_trans hlenbh hlen2, ?_, hwf2⟩
          · simp [mergeChildrenH, hpriv, hco, exbind_ok, hmok, hrok]
          · simp only [List.map_cons, mergeChildren, Scope.priv, Scope.props,
              hpriv, ite_true]
            rw [dLookup_concrProps, ← hacc_ag, ← hcv, hmpok, exbind_ok, ← hmap_ag]
            exact hrpok
          · intro i hi
            rw [hag2 i (lt_of_lt_of_le hi hlenbh), hagbh i hi]
    · rcases ih h acc hwfcs haccwf with
        ⟨e, hre, hrp⟩ | ⟨h2, rv, hrok, hrpok, hlen2, hag2, hwf2⟩
      · left
        refine ⟨e, ?_, ?_⟩
        · simp [mergeChildrenH, hpriv, hre]
        · simp only [List.map_cons, mergeChildren, Scope.priv, Scope.props,
            hpriv, Bool.false_eq_true, if_neg, ite_false]
          exact hrp
      · right
        refine ⟨h2, rv, ?_, ?_, hlen2, hag2, hwf2⟩
        · simp [mergeChildrenH, hpriv, hrok]
        · simp only [List.map_cons, mergeChildren, Scope.priv, Scope.props,
            hpriv, Bool.false_eq_true, if_neg, ite_false]
          exact hrpok

/-- Heap-instrumented `get` refines the immutable `get`: errors agree; on
success the returned value read back through the final heap is exactly
the immutable resolution of the concretized scope tree, the heap only
grows, every pre-existing object is untouched, and a returned collection
is a freshly allocated object. -/
theorem getOptH_rel (chain : List HFrame) (self : HScope) (name : String)
    (h : Heap) (hwfc : wfChain h.length chain) (hwfn : wfNode h.length self) :
    (∃ e, getOptH chain self name h = Except.error e ∧
      getOpt (concrChain h chain) (concrNode h self) name = Except.error e) ∨
    (∃ h2 rv, getOptH chain self name h = Except.ok (h2, rv) ∧
      getOpt (concrChain h chain) (concrNode h self) name =
        Except.ok (rv.map (concrHV h2)) ∧
      heapStep h h2 rv ∧ (∀ v, rv = some v → wfHV h2.length v)) := by
  obtain ⟨hwfp, hwfch⟩ := hwfn
  have hv0wf : ∀ v, dLookup self.props name = some v → wfHV h.length v :=
    fun v hv => dLookup_wf hwfp hv
  have hprops : (concrNode h self).props = concrProps h self.props := by
    cases self
    rfl
  have hprv : (concrNode h self).priv = self.priv := by
    cases self
    rfl
  have hchd : (concrNode h self).children =
      self.children.map (fun c => Scope.node c.priv (concrProps h c.props) []) := by
    cases self
    rfl
  have hlk : dLookup (concrProps h self.props) name =
      (dLookup self.props name).map (concrHV h) :=
    dLookup_concrProps h self.props name
  have hsc : isScalarOpt ((dLookup self.props name).map (concrHV h)) =
      isScalarHV (dLookup self.props name) := isScalarOpt_concr hv0wf
  by_cases hscal : isScalarHV (dLookup self.props name) = true
  · right
    refine ⟨h, dLookup self.props name, ?_, ?_,
      ⟨le_refl _, fun i _ => rfl, ?_⟩, hv0wf⟩
    · simp [getOptH, hscal]
    · simp [getOpt, hprops, hprv, hlk, hsc, hscal]
    · intro j hj
      rw [hj] at hscal
      simp [isScalarHV] at hscal
  · by_cases hp : self.priv = true
    · obtain ⟨h3, v3, hco, hcv, hstep, hwf3⟩ :=
        hCopyOut_rel h (dLookup self.props name) hv0wf
      right
      refine ⟨h3, v3, ?_, ?_, hstep, hwf3⟩
      · simp [getOptH, hscal, hp, hco]
      · simp only [getOpt, hprops, hprv, hlk, hsc, hscal, Bool.false_eq_true,
          if_neg, ite_false, hp, ite_true]
        rw [← hcv]
    · rcases getUpH_rel name chain h hwfc with
        ⟨e, hue, hup⟩ | ⟨h1, pv, huok, hupok, hstep1, hwf1⟩
      · left
        refine ⟨e, ?_, ?_⟩
        · simp [getOptH, hscal, hp, hue, exbind_error]
        · simp [getOpt, hprops, hprv, hlk, hsc, hscal, hp, hup, exbind_error]
      · have hagree : (dLookup self.props name).map (concrHV h1) =
            (dLookup self.props name).map (concrHV h) := by
          cases hdl : dLookup self.props name with
          | none => rfl
          | some v =>
            simp [Option.map_some', concrHV_agree hstep1.2.1 (hv0wf v hdl)]
        have haccwf1 : ∀ v, dLookup self.props name = some v → wfHV h1.length v :=
          fun v hv => wfHV_mono hstep1.1 (hv0wf v hv)
        have hsvfresh1 : ∀ j, pv = some (HV.href j) → h.length ≤ j :=
          fun j hj => (hstep1.2.2 j hj).1
        rcases hMergeInto_rel h1 (dLookup self.props name) pv h.length
            haccwf1 hwf1 hsvfresh1 with
          ⟨e, hme, hmp⟩ | ⟨hb, vb, hmok, hmpok, hlenb, hagb, hwfb⟩
        · left
          refine ⟨e, ?_, ?_⟩
          · simp [getOptH, hscal, hp, huok, exbind_ok, hme, exbind_error]
          · simp only [getOpt, hprops, hprv, hlk, hsc, hscal, Bool.false_eq_true,
              if_neg, ite_false, hp, hupok, exbind_ok]
            rw [← hagree, hmp, exbind_error]
        · have hagbh : ∀ i, i < h.length → hb[i]? = h[i]? := by
            intro i hi
            rw [hagb i hi, hstep1.2.1 i hi]
          have hlenbh : h.length ≤ hb.length := by
            rw [hlenb]
            exact hstep1.1
          have hwfchb : ∀ c ∈ self.children, wfProps hb.length c.props :=
            fun c hc => wfProps_mono hlenbh (hwfch c hc)
          have hmap_ag :
              self.children.map
                (fun c => Scope.node c.priv (concrProps hb c.props) []) =
              self.children.map
                (fun c => Scope.node c.priv (concrProps h c.props) []) := by
            apply List.map_congr_left
            intro c hc
            rw [concrProps_agree hagbh (hwfch c hc)]
          rcases mergeChildrenH_rel name self.children hb vb hwfchb hwfb with
            ⟨e, hre, hrp⟩ | ⟨hc2, rv2, hrok, hrpok, hlen2, hag2, hwf2⟩
          · left
            refine ⟨e, ?_, ?_⟩
            · simp [getOptH, hscal, hp, huok, exbind_ok, hmok, hre, exbind_error]
            · simp only [getOpt, hprops, hprv, hlk, hsc, hscal, Bool.false_eq_true,
                if_neg, ite_false, hp, hupok, exbind_ok, hchd]
              rw [← hagree, hmpok, exbind_ok, ← hmap_ag]
              exact hrp
          · obtain ⟨h4, v4, hco, hcv, hstep4, hwf4⟩ := hCopyOut_rel hc2 rv2 hwf2
            right
            refine ⟨h4, v4, ?_, ?_, ?_, hwf4⟩
            · simp [getOptH, hscal, hp, huok, exbind_ok, hmok, hrok, hco]
            · simp only [getOpt, hprops, hprv, hlk, hsc, hscal, Bool.false_eq_true,
                if_neg, ite_false, hp, hupok, exbind_ok, hchd]
              rw [← hagree, hmpok, exbind_ok, ← hmap_ag, hrpok, ← hcv]
            · have hlc2 : h.length ≤ hc2.length := le_trans hlenbh hlen2
              refine ⟨le_trans hlc2 hstep4.1, ?_, ?_⟩
              · intro i hi
                rw [hstep4.2.1 i (lt_of_lt_of_le hi hlc2),
                  hag2 i (lt_of_lt_of_le hi hlenbh), hagbh i hi]
              · intro j hj
                obtain ⟨hj1, hj2⟩ := hstep4.2.2 j hj
                exact ⟨le_trans hlc2 hj1, hj2⟩

/-- The caller-observable behavior of the heap-instrumented `get` is the
immutable `get` on the concretized tree. -/
theorem getOptH_corr (chain : List HFrame) (self : HScope) (name : String)
    (h : Heap) (hwfc : wfChain h.length chain) (hwfn : wfNode h.length self) :
    resultValue (getOptH chain self name h) =
      getOpt (concrChain h chain) (concrNode h self) name := by
  rcases getOptH_rel chain self name h hwfc hwfn with
    ⟨e, he, hp⟩ | ⟨h2, rv, hok, hpok, _, _⟩
  · rw [he, hp]
    rfl
  · rw [hok, hpok]
    rfl

/-- C8: the collection returned by `Scope.get` is a fresh copy on each
call.  In every well-formed heap state, when `get` returns a collection it
is a newly allocated object — distinct from every object stored in the
scope, its private children or its ancestors (first part) — and
overwriting that object with anything (mutating the returned list or
dict) leaves every stored property of the scope and of the whole ancestor
chain unchanged and leaves the observable result of a later identical
`get` unchanged (second part). -/
theorem c8_copy_isolation (chain : List HFrame) (self : HScope) (name : String)
    (h h2 : Heap) (rv : Option HV)
    (hwfc : wfChain h.length chain) (hwfn : wfNode h.length self)
    (hrun : getOptH chain self name h = Except.ok (h2, rv)) :
    (∀ j, rv = some (HV.href j) → h.length ≤ j ∧ j < h2.length) ∧
    (∀ (j : Nat) (o : Obj), rv = some (HV.href j) →
      concrChain (h2.set j o) chain = concrChain h chain ∧
      concrProps (h2.set j o) self.props = concrProps h self.props ∧
      concrNode (h2.set j o) self = concrNode h self ∧
      resultValue (getOptH chain self name (h2.set j o)) =
        resultValue (getOptH chain self name h)) := by
  rcases getOptH_rel chain self name h hwfc hwfn with
    ⟨e, he, _⟩ | ⟨h2b, rvb, hok, hpok, hstep, hwfv⟩
  · rw [hrun] at he
    cases he
  · have heq := hrun.symm.trans hok
    injection heq with heq2
    have hh : h2 = h2b := congrArg Prod.fst heq2
    have hv : rv = rvb := congrArg Prod.snd heq2
    subst hh
    subst hv
    constructor
    · exact hstep.2.2
    · intro j o hj
      have hfresh : h.length ≤ j := (hstep.2.2 j hj).1
      have hagset : ∀ i, i < h.length → (h2.set j o)[i]? = h[i]? := by
        intro i hi
        rw [List.getElem?_set_ne (by omega), hstep.2.1 i hi]
      have hlenset : h.length ≤ (h2.set j o).length := by
        rw [List.length_set]
        exact hstep.1
      refine ⟨concrChain_agree hagset hwfc, concrProps_agree hagset hwfn.1,
        concrNode_agree hagset hwfn, ?_⟩
      rw [getOptH_corr chain self name (h2.set j o)
          (fun f hf => wfProps_mono hlenset (hwfc f hf))
          ⟨wfProps_mono hlenset hwfn.1,
            fun c hc => wfProps_mono hlenset (hwfn.2 c hc)⟩,
        getOptH_corr chain self name h hwfc hwfn,
        concrChain_agree hagset hwfc, concrNode_agree hagset hwfn]

/-- C8 (witness): a parent storing `tag_list ↦ ["base"]` (object 0) and a
scope storing `tag_list ↦ ["extra"]` (object 1): `get` returns object 3,
a fresh copy holding `["base", "extra"]`; emptying that object afterward
changes neither the stored properties nor the result of a later `get`. -/
theorem c8_witness :
    ((2 : Nat) ≤ 3 ∧ (3 : Nat) < 4) ∧
    (concrChain
        (([Obj.olist [Value.str "base"], Obj.olist [Value.str "extra"],
           Obj.olist [Value.str "base", Value.str "extra"],
           Obj.olist [Value.str "base", Value.str "extra"]].set 3
            (Obj.olist [])))
        [⟨false, [("tag_list", HV.href 0)]⟩] =
      concrChain [Obj.olist [Value.str "base"], Obj.olist [Value.str "extra"]]
        [⟨false, [("tag_list", HV.href 0)]⟩] ∧
     concrProps
        (([Obj.olist [Value.str "base"], Obj.olist [Value.str "extra"],
           Obj.olist [Value.str "base", Value.str "extra"],
           Obj.olist [Value.str "base", Value.str "extra"]].set 3
            (Obj.olist [])))
        (HScope.node false [("tag_list", HV.href 1)] []).props =
      concrProps [Obj.olist [Value.str "base"], Obj.olist [Value.str "extra"]]
        (HScope.node false [("tag_list", HV.href 1)] []).props ∧
     concrNode
        (([Obj.olist [Value.str "base"], Obj.olist [Value.str "extra"],
           Obj.olist [Value.str "base", Value.str "extra"],
           Obj.olist [Value.str "base", Value.str "extra"]].set 3
            (Obj.olist [])))
        (HScope.node false [("tag_list", HV.href 1)] []) =
      concrNode [Obj.olist [Value.str "base"], Obj.olist [Value.str "extra"]]
        (HScope.node false [("tag_list", HV.href 1)] []) ∧
     resultValue (getOptH [⟨false, [("tag_list", HV.href 0)]⟩]
        (HScope.node false [("tag_list", HV.href 1)] []) "tag_list"
        (([Obj.olist [Value.str "base"], Obj.olist [Value.str "extra"],
           Obj.olist [Value.str "base", Value.str "extra"],
           Obj.olist [Value.str "base", Value.str "extra"]].set 3
            (Obj.olist [])))) =
      resultValue (getOptH [⟨false, [("tag_list", HV.href 0)]⟩]
        (HScope.node false [("tag_list", HV.href 1)] []) "tag_list"
        [Obj.olist [Value.str "base"], Obj.olist [Value.str "extra"]])) := by
  have hwfc : wfChain
      ([Obj.olist [Value.str "base"], Obj.olist [Value.str "extra"]] : Heap).length
      [⟨false, [("tag_list", HV.href 0)]⟩] := by
    intro f hf
    rw [List.mem_singleton] at hf
    subst hf
    intro p hp
    rw [List.mem_singleton] at hp
    subst hp
    show (0 : Nat) < 2
    decide
  have hwfn : wfNode
      ([Obj.olist [Value.str "base"], Obj.olist [Value.str "extra"]] : Heap).length
      (HScope.node false [("tag_list", HV.href 1)] []) := by
    constructor
    · intro p hp
      simp only [HScope.props] at hp
      rw [List.mem_singleton] at hp
      subst hp
      show (1 : Nat) < 2
      decide
    · intro c hc
      simp [HScope.children] at hc
  have h := c8_copy_isolation [⟨false, [("tag_list", HV.href 0)]⟩]
    (HScope.node false [("tag_list", HV.href 1)] []) "tag_list"
    [Obj.olist [Value.str "base"], Obj.olist [Value.str "extra"]]
    [Obj.olist [Value.str "base"], Obj.olist [Value.str "extra"],
     Obj.olist [Value.str "base", Value.str "extra"],
     Obj.olist [Value.str "base", Value.str "extra"]]
    (some (HV.href 3)) hwfc hwfn rfl
  exact ⟨h.1 3 rfl, h.2 3 (Obj.olist []) rfl⟩

end Ebb
